import Mathlib

/-!
Verification development for the gdpr_consent vendor consent string codec
(src/vendor_consent.rs, the module compiled by src/lib.rs; src/vendor.rs is an
older historical snapshot of the same codec).

The Rust code is shallowly embedded:
  * bit streams are `List Bool` (MSB-first), bytes are `Nat` values below 256;
  * `bit_vec::BitVec` is a list of bools with its explicit capacity (`nbits` is
    the list length); `bit_set::BitSet` wraps a `BitVec`;
  * fallible operations return `Except Error`; operations that can panic in
    Rust (index out of bounds, integer underflow in debug builds) return
    `Option`, with `none` standing for a panic; the combined decode monad is
    `Res α = Option (Except Error α)` with `none` = panic;
  * external crates (base64 0.x, bitstream-io, bit-vec, bit-set, chrono) are
    modelled from their documented behaviour on the inputs this crate feeds
    them, as noted at each definition.
-/

namespace GdprConsent

/-- Value of an MSB-first bit string. -/
def bitsVal (l : List Bool) : Nat :=
  l.foldl (fun a b => 2 * a + b.toNat) 0

/-- MSB-first bit string of the low `w` bits of `v`. -/
def natToBits : Nat → Nat → List Bool
  | 0, _ => []
  | w + 1, v => natToBits w (v / 2) ++ [decide (v % 2 = 1)]

/-- The eight bits of a byte, most significant first. -/
def byteBits (b : Nat) : List Bool := natToBits 8 b

/-- Value of up to eight bits, zero padded on the right to a full byte
(matches how bit_vec::BitVec::to_bytes pads a trailing partial byte). -/
def byteVal (l : List Bool) : Nat :=
  bitsVal (l ++ List.replicate (8 - l.length) false)

/-- Pack a bit string into bytes, zero padding the final partial byte
(bit_vec::BitVec::to_bytes). -/
def bitsToBytes : List Bool → List Nat
  | b0 :: b1 :: b2 :: b3 :: b4 :: b5 :: b6 :: b7 :: rest =>
      bitsVal [b0, b1, b2, b3, b4, b5, b6, b7] :: bitsToBytes rest
  | [] => []
  | l => [byteVal l]

/-- Pack a bit string into whole bytes, dropping leftover bits shorter than a
byte (used by the base64 decoder). -/
def bitsToFullBytes : List Bool → List Nat
  | b0 :: b1 :: b2 :: b3 :: b4 :: b5 :: b6 :: b7 :: rest =>
      bitsVal [b0, b1, b2, b3, b4, b5, b6, b7] :: bitsToFullBytes rest
  | _ => []

/-- Value of up to six bits, zero padded on the right (base64 final quantum). -/
def sextetVal (l : List Bool) : Nat :=
  bitsVal (l ++ List.replicate (6 - l.length) false)

/-- Cut a bit string into six-bit groups, zero padding the final group. -/
def sextetsOf : List Bool → List Nat
  | b0 :: b1 :: b2 :: b3 :: b4 :: b5 :: rest =>
      bitsVal [b0, b1, b2, b3, b4, b5] :: sextetsOf rest
  | [] => []
  | l => [sextetVal l]

/-- Character of a six-bit value in the base64 URL-safe alphabet. -/
def b64UrlChar (v : Nat) : Char :=
  if v < 26 then Char.ofNat (65 + v)
  else if v < 52 then Char.ofNat (97 + (v - 26))
  else if v < 62 then Char.ofNat (48 + (v - 52))
  else if v = 62 then Char.ofNat 45
  else Char.ofNat 95

/-- base64::encode_config(_, base64::URL_SAFE_NO_PAD): URL-safe alphabet,
no `=` padding. -/
def base64EncodeUrlNoPad (bytes : List Nat) : String :=
  String.mk ((sextetsOf (bytes.flatMap byteBits)).map b64UrlChar)

/-- Six-bit value of a character in the standard base64 alphabet
(`+`/`/` for 62/63; `-` and `_` are not accepted, matching
base64::decode which uses the STANDARD alphabet). -/
def b64StdVal (c : Char) : Option Nat :=
  let n := c.toNat
  if 65 ≤ n ∧ n ≤ 90 then some (n - 65)
  else if 97 ≤ n ∧ n ≤ 122 then some (n - 97 + 26)
  else if 48 ≤ n ∧ n ≤ 57 then some (n - 48 + 52)
  else if n = 43 then some 62
  else if n = 47 then some 63
  else none

/-- Errors of the codec (src/vendor_consent.rs `Error`).  IO errors carry the
kind raised by bitstream-io: `unexpectedEof` for a short read,
`invalidInput` for a value that does not fit the requested bit width. -/
inductive IoErr
  | unexpectedEof
  | invalidInput
deriving DecidableEq, Repr

inductive Error
  | base64DecodeError
  | unsupportedVersion (v : Nat)
  | ioError (e : IoErr)
  | fromUtf8Error
  | other (msg : String)
deriving DecidableEq, Repr

/-- Decidable equality for `Except` results, so concrete codec runs can be
checked by `decide`. -/
def exceptDecEq {ε α : Type} [DecidableEq ε] [DecidableEq α] :
    DecidableEq (Except ε α) := fun x y =>
  match x, y with
  | .ok a, .ok b =>
      if h : a = b then .isTrue (by rw [h])
      else .isFalse (fun hc => by cases hc; exact h rfl)
  | .error e, .error f =>
      if h : e = f then .isTrue (by rw [h])
      else .isFalse (fun hc => by cases hc; exact h rfl)
  | .ok _, .error _ => .isFalse (fun hc => by cases hc)
  | .error _, .ok _ => .isFalse (fun hc => by cases hc)

instance {ε α : Type} [DecidableEq ε] [DecidableEq α] :
    DecidableEq (Except ε α) := exceptDecEq

/-- base64::decode (standard alphabet, padding optional in the 0.x crate
used here; trailing `=` stripped, length 1 mod 4 rejected). -/
def base64Decode (s : String) : Except Error (List Nat) :=
  let core := (s.data.reverse.dropWhile (fun c => c = Char.ofNat 61)).reverse
  if core.length % 4 = 1 then .error .base64DecodeError
  else
    match core.mapM b64StdVal with
    | none => .error .base64DecodeError
    | some vs => .ok (bitsToFullBytes (vs.flatMap (natToBits 6)))

/-- Model of bit_vec::BitVec: bits with an explicit capacity (the list
length is `nbits`). -/
structure BitVec where
  bits : List Bool
deriving DecidableEq, Repr

def BitVec.from_elem (n : Nat) (b : Bool) : BitVec := ⟨List.replicate n b⟩

def BitVec.nbits (v : BitVec) : Nat := v.bits.length

/-- bit_vec::BitVec::set panics when the index is out of bounds; `none`
models the panic. -/
def BitVec.set (v : BitVec) (i : Nat) (b : Bool) : Option BitVec :=
  if i < v.bits.length then some ⟨v.bits.set i b⟩ else none

/-- bit_vec::BitVec::to_bytes: bit i becomes bit (7 - i % 8) of byte i / 8;
a trailing partial byte is zero padded. -/
def BitVec.to_bytes (v : BitVec) : List Nat := bitsToBytes v.bits

/-- Rust debug-mode unsigned subtraction: panics (`none`) on underflow.
(In release mode the wrapped value immediately feeds BitVec::set far out of
bounds, which panics as well, so `none` is the outcome either way.) -/
def rustSub (a b : Nat) : Option Nat :=
  if b ≤ a then some (a - b) else none

/-- Indices of the true bits of a bool list, starting at index `i`. -/
def trueIndices : List Bool → Nat → List Nat
  | [], _ => []
  | b :: rest, i => if b then i :: trueIndices rest (i + 1) else trueIndices rest (i + 1)

/-- Model of bit_set::BitSet: a set of small naturals stored in a BitVec. -/
structure BitSet where
  bv : BitVec
deriving DecidableEq, Repr

def BitSet.get_ref (s : BitSet) : BitVec := s.bv

def BitSet.from_bit_vec (v : BitVec) : BitSet := ⟨v⟩

/-- bit_set::BitSet::from_bytes: bit i of the set is bit (7 - i % 8) of
byte i / 8; the capacity is 8 times the byte count. -/
def BitSet.from_bytes (bytes : List Nat) : BitSet := ⟨⟨bytes.flatMap byteBits⟩⟩

/-- bit_set::BitSet::contains. -/
def BitSet.contains (s : BitSet) (i : Nat) : Bool := s.bv.bits.getD i false

/-- bit_set::BitSet::len: the number of elements (set bits). -/
def BitSet.len (s : BitSet) : Nat := s.bv.bits.count true

/-- bit_set::BitSet::iter: the elements in ascending order. -/
def BitSet.iter (s : BitSet) : List Nat := trueIndices s.bv.bits 0

/-- Pointwise conjunction with the negation of the second list, keeping the
length of the first (bit_set::BitSet::difference_with at block level, the
missing blocks of a shorter second operand acting as zero). -/
def andNotBits : List Bool → List Bool → List Bool
  | [], _ => []
  | a :: as', [] => a :: andNotBits as' []
  | a :: as', b :: bs' => (a && !b) :: andNotBits as' bs'

/-- bit_set::BitSet::difference_with. -/
def BitSet.difference_with (s other : BitSet) : BitSet :=
  ⟨⟨andNotBits s.bv.bits other.bv.bits⟩⟩

/-- bit_set PartialEq: set equality, capacities ignored (blocks are compared
zero extended). -/
def BitSet.eqSet (a b : BitSet) : Prop := ∀ i, a.contains i = b.contains i

/-- chrono DateTime<Utc> as the instant it denotes: seconds and subsecond
nanoseconds since the Unix epoch. -/
structure DateTime where
  secs : Int
  nsecs : Nat
deriving DecidableEq, Repr

/-- chrono Utc.timestamp. -/
def utcTimestamp (secs : Int) (nsecs : Nat) : DateTime := ⟨secs, nsecs⟩

/-- chrono DateTime::timestamp_subsec_millis. -/
def DateTime.subsecMillis (d : DateTime) : Nat := d.nsecs / 1000000

/-- src/vendor_consent.rs `V1`. -/
structure V1 where
  created : DateTime
  last_updated : DateTime
  cmp_id : Nat
  cmp_version : Nat
  consent_screen : Nat
  consent_language : String
  vendor_list_version : Nat
  purposes_allowed : BitSet
  max_vendor_id : Nat
  vendor_consent : BitSet
deriving DecidableEq, Repr

/-- Derived PartialEq of `V1`: componentwise, BitSet fields compared as sets
(bit_set compares blocks zero extended). -/
def V1.eqV1 (a b : V1) : Prop :=
  a.created = b.created ∧ a.last_updated = b.last_updated ∧
  a.cmp_id = b.cmp_id ∧ a.cmp_version = b.cmp_version ∧
  a.consent_screen = b.consent_screen ∧
  a.consent_language = b.consent_language ∧
  a.vendor_list_version = b.vendor_list_version ∧
  BitSet.eqSet a.purposes_allowed b.purposes_allowed ∧
  a.max_vendor_id = b.max_vendor_id ∧
  BitSet.eqSet a.vendor_consent b.vendor_consent

inductive VendorConsent
  | V1 (v : V1)
deriving DecidableEq, Repr

/-- src/vendor_consent.rs `Entry`. -/
inductive Entry
  | single (x : Nat)
  | range (s e : Nat)
deriving DecidableEq, Repr

/-- Monad of the decoder: `none` is a Rust panic, `some (.error e)` an
`Err`, `some (.ok a)` an `Ok`. -/
def Res (α : Type) : Type := Option (Except Error α)

def Res.bind {α β : Type} : Res α → (α → Res β) → Res β
  | none, _ => none
  | some (.error e), _ => some (.error e)
  | some (.ok a), f => f a

instance : Monad Res where
  pure a := some (.ok a)
  bind := Res.bind

instance {α : Type} [DecidableEq α] : DecidableEq (Res α) :=
  inferInstanceAs (DecidableEq (Option (Except Error α)))

/-- Lift a fallible (but panic-free) computation into `Res`. -/
def liftE {α : Type} (x : Except Error α) : Res α := some x

/-- Lift a possibly panicking computation into `Res`. -/
def liftP {α : Type} (x : Option α) : Res α :=
  match x with
  | none => none
  | some a => some (.ok a)

/-- bitstream_io BitReader::read: consume `n` bits MSB-first; a short read
fails with an unexpected-EOF io error. -/
def readBits (n : Nat) (bs : List Bool) : Except Error (Nat × List Bool) :=
  if n ≤ bs.length then .ok (bitsVal (bs.take n), bs.drop n)
  else .error (.ioError .unexpectedEof)

/-- Read `n` whole (not necessarily aligned) bytes, as the Rust loops that
push `reader.read::<u8>(8)` results and BitReader::read_bytes do. -/
def readNBytes : Nat → List Bool → Except Error (List Nat × List Bool)
  | 0, bs => .ok ([], bs)
  | n + 1, bs => do
      let (b, bs1) ← readBits 8 bs
      let (rest, bs2) ← readNBytes n bs1
      .ok (b :: rest, bs2)

/-- bitstream_io BitWriter::write: the value must fit in the requested
width, otherwise an invalid-input io error is raised. -/
def writeBits (w : Nat) (v : Nat) : Except Error (List Bool) :=
  if v < 2 ^ w then .ok (natToBits w v) else .error (.ioError .invalidInput)

/-- The 36-bit timestamp write (`write::<i64>(36, ...)`).  The deciseconds
are non-negative for every timestamp this crate produces; a value outside
the 36-bit range is rejected by bitstream-io. -/
def writeTs (x : Int) : Except Error (List Bool) :=
  if 0 ≤ x ∧ x < 2 ^ 36 then .ok (natToBits 36 x.toNat)
  else .error (.ioError .invalidInput)

/-- BitWriter::write_bytes (bytes are below 256, so this cannot fail). -/
def writeBytes (bytes : List Nat) : List Bool := bytes.flatMap byteBits

/-- BitWriter::byte_align: zero-pad to a byte boundary. -/
def byteAlign (acc : List Bool) : List Bool :=
  acc ++ List.replicate ((8 - acc.length % 8) % 8) false

def DECISECS_IN_SEC : Nat := 10
def MILLISECS_IN_DECISEC : Nat := 100
def NANOSECS_IN_DECISEC : Nat := 100000000

/-- UTF-8 encoding of a character (String::as_bytes). -/
def utf8EncodeChar (c : Char) : List Nat :=
  let n := c.toNat
  if n < 128 then [n]
  else if n < 2048 then [192 + n / 64, 128 + n % 64]
  else if n < 65536 then [224 + n / 4096, 128 + n / 64 % 64, 128 + n % 64]
  else [240 + n / 262144, 128 + n / 4096 % 64, 128 + n / 64 % 64, 128 + n % 64]

/-- String::as_bytes / String::len count UTF-8 bytes. -/
def utf8Bytes (s : String) : List Nat := s.data.flatMap utf8EncodeChar

/-- String::from_utf8 on the two language bytes produced by the decoder.
Complete for two-byte inputs: ASCII pair, or one two-byte sequence;
anything else is invalid UTF-8. -/
def fromUtf8Pair (b1 b2 : Nat) : Except Error String :=
  if b1 < 128 ∧ b2 < 128 then .ok (String.mk [Char.ofNat b1, Char.ofNat b2])
  else if 194 ≤ b1 ∧ b1 ≤ 223 ∧ 128 ≤ b2 ∧ b2 ≤ 191 then
    .ok (String.mk [Char.ofNat ((b1 - 192) * 64 + (b2 - 128))])
  else .error .fromUtf8Error

/-- src/vendor_consent.rs `parse_v1_bitfield`.  Note the buffer size already
rounds up to whole bytes (`max/8 + 1` when `max % 8 > 0`) and the remainder
bits are then read in addition. -/
def parse_v1_bitfield (max_vendor_id : Nat) (bs : List Bool) :
    Except Error (BitSet × List Bool) := do
  let buf_size := max_vendor_id / 8 + if max_vendor_id % 8 = 0 then 0 else 1
  let (buf, bs1) ← readNBytes buf_size bs
  if max_vendor_id % 8 > 0 then do
    let (b, bs2) ← readBits (max_vendor_id % 8) bs1
    .ok (BitSet.from_bytes (buf ++ [b]), bs2)
  else
    .ok (BitSet.from_bytes buf, bs1)

/-- One `buf.set(id - 1, !default_consent)` from the range loop:
panics for id 0 (underflow) or an index at or beyond the capacity. -/
def setConsent (dc : Bool) (buf : BitVec) (id : Nat) : Option BitVec :=
  match rustSub id 1 with
  | none => none
  | some j => buf.set j (!dc)

/-- Iteration of `buf.set` over a list of IDs, stopping at the first panic. -/
def setIdsLoop (dc : Bool) : BitVec → List Nat → Option BitVec
  | buf, [] => some buf
  | buf, id :: ids =>
      match setConsent dc buf id with
      | none => none
      | some buf1 => setIdsLoop dc buf1 ids

/-- The `for id in start..=end` body of a Range entry. -/
def setRangeIds (dc : Bool) (buf : BitVec) (s e : Nat) : Option BitVec :=
  setIdsLoop dc buf (List.range' s (e + 1 - s))

/-- The entry loop of src/vendor_consent.rs `parse_v1_range`, reading and
applying `n` entries. -/
def rangeLoop : Nat → Bool → BitVec → List Bool → Res (BitVec × List Bool)
  | 0, _, buf, bs => pure (buf, bs)
  | n + 1, dc, buf, bs => do
      let (t, bs1) ← liftE (readBits 1 bs)
      if t = 0 then do
        let (id, bs2) ← liftE (readBits 16 bs1)
        let buf1 ← liftP (setConsent dc buf id)
        rangeLoop n dc buf1 bs2
      else do
        let (s, bs2) ← liftE (readBits 16 bs1)
        let (e, bs3) ← liftE (readBits 16 bs2)
        let buf1 ← liftP (setRangeIds dc buf s e)
        rangeLoop n dc buf1 bs3

/-- src/vendor_consent.rs `parse_v1_range`. -/
def parse_v1_range (max_vendor_id : Nat) (bs : List Bool) :
    Res (BitSet × List Bool) := do
  let (d, bs1) ← liftE (readBits 1 bs)
  let default_consent := d = 1
  let (num_entries, bs2) ← liftE (readBits 12 bs1)
  let (buf, bs3) ← rangeLoop num_entries default_consent
      (BitVec.from_elem max_vendor_id default_consent) bs2
  pure (BitSet.from_bit_vec buf, bs3)

/-- src/vendor_consent.rs `parse_v1` (the reader has already consumed the
six version bits). -/
def parse_v1 (bs : List Bool) : Res V1 := do
  let (created_raw, bs) ← liftE (readBits 36 bs)
  let created := utcTimestamp (created_raw / DECISECS_IN_SEC)
      (created_raw % DECISECS_IN_SEC * NANOSECS_IN_DECISEC)
  let (last_updated_raw, bs) ← liftE (readBits 36 bs)
  let last_updated := utcTimestamp (last_updated_raw / DECISECS_IN_SEC)
      (last_updated_raw % DECISECS_IN_SEC * NANOSECS_IN_DECISEC)
  let (cmp_id, bs) ← liftE (readBits 12 bs)
  let (cmp_version, bs) ← liftE (readBits 12 bs)
  let (consent_screen, bs) ← liftE (readBits 6 bs)
  let (l0, bs) ← liftE (readBits 6 bs)
  let (l1, bs) ← liftE (readBits 6 bs)
  let consent_language ← liftE (fromUtf8Pair (l0 + 97) (l1 + 97))
  let (vendor_list_version, bs) ← liftE (readBits 12 bs)
  let (pbytes, bs) ← liftE (readNBytes 3 bs)
  let purposes_allowed := BitSet.from_bytes pbytes
  let (max_vendor_id, bs) ← liftE (readBits 16 bs)
  let (sel, bs) ← liftE (readBits 1 bs)
  let (vendor_consent, _) ←
    if sel = 0 then liftE (parse_v1_bitfield max_vendor_id bs)
    else parse_v1_range max_vendor_id bs
  pure { created := created, last_updated := last_updated, cmp_id := cmp_id,
         cmp_version := cmp_version, consent_screen := consent_screen,
         consent_language := consent_language,
         vendor_list_version := vendor_list_version,
         purposes_allowed := purposes_allowed,
         max_vendor_id := max_vendor_id, vendor_consent := vendor_consent }

/-- `impl FromStr for VendorConsent` (src/vendor_consent.rs). -/
def from_str (s : String) : Res VendorConsent := do
  let data ← liftE (base64Decode s)
  let bs := data.flatMap byteBits
  let (version, bs) ← liftE (readBits 6 bs)
  if version = 1 then do
    let v ← parse_v1 bs
    pure (.V1 v)
  else
    liftE (.error (.unsupportedVersion version))

/-- Push the open run into the entry list, with the incremental bit count
(the two identical blocks of src/vendor_consent.rs `create_true_range`). -/
def pushEntry (s0 e0 : Nat) (es : List Entry) (c : Nat) : List Entry × Nat :=
  if s0 = e0 then (es ++ [.single (s0 + 1)], c + 17)
  else (es ++ [.range (s0 + 1) (e0 + 1)], c + 33)

/-- The iteration of `create_true_range` over the ascending set elements.
The two parallel `Option` state variables `start`/`end` of the source are
always both `None` or both `Some`, so they are carried as one option pair. -/
def runLoop : List Nat → Option (Nat × Nat) → List Entry × Nat → List Entry × Nat
  | [], none, acc => acc
  | [], some (s0, e0), (es, c) => pushEntry s0 e0 es c
  | i :: rest, none, acc => runLoop rest (some (i, i)) acc
  | i :: rest, some (s0, e0), (es, c) =>
      if i = e0 + 1 then runLoop rest (some (s0, i)) (es, c)
      else runLoop rest (some (i, i)) (pushEntry s0 e0 es c)

/-- src/vendor_consent.rs `create_true_range`. -/
def create_true_range (vendor_consent : BitSet) : List Entry × Nat :=
  runLoop vendor_consent.iter none ([], 13)

/-- src/vendor_consent.rs `create_false_range`. -/
def create_false_range (vendor_consent : BitSet) (max_vendor_id : Nat) :
    List Entry × Nat :=
  create_true_range
    ((BitSet.from_bit_vec (BitVec.from_elem max_vendor_id true)).difference_with
      vendor_consent)

/-- The `default_consent` decision of `serialize_v1`
(`v.vendor_consent.len() >= v.max_vendor_id / 2`). -/
def v1DefaultConsent (v : V1) : Bool :=
  decide (v.max_vendor_id / 2 ≤ v.vendor_consent.len)

/-- The candidate range encoding and its bit length chosen by `serialize_v1`. -/
def v1Range (v : V1) : List Entry × Nat :=
  if v1DefaultConsent v then create_false_range v.vendor_consent v.max_vendor_id
  else create_true_range v.vendor_consent

/-- The encoding selector of `serialize_v1`: 0 = bitfield, 1 = range. -/
def v1EncodingType (v : V1) : Nat :=
  if v.max_vendor_id ≤ (v1Range v).2 then 0 else 1

/-- The 36-bit timestamp value written by `serialize_v1`:
`timestamp() * 10 + timestamp_subsec_millis() / 100`. -/
def tsDecisecs (d : DateTime) : Int :=
  d.secs * 10 + ((d.subsecMillis / MILLISECS_IN_DECISEC : Nat) : Int)

/-- The bits of one range entry (`as u16` casts truncate modulo 65536, and a
16-bit write of a u16 cannot overflow). -/
def entryBitsOf : Entry → List Bool
  | .single x => [false] ++ natToBits 16 (x % 65536)
  | .range s e => [true] ++ natToBits 16 (s % 65536) ++ natToBits 16 (e % 65536)

/-- src/vendor_consent.rs `encode_range`, appending to the already written
bits `acc`. -/
def encode_range (acc : List Bool) (default_consent : Bool)
    (range : List Entry) : Except Error (List Bool) := do
  let nb ← writeBits 12 (range.length % 65536)
  .ok (byteAlign (acc ++ [default_consent] ++ nb ++ range.flatMap entryBitsOf))

/-- The language-byte 6-bit writes of `serialize_v1` (each byte is within
a..z when reached, so `b - 97 < 64` always fits). -/
def langBits (language_bytes : List Nat) : List Bool :=
  language_bytes.flatMap (fun b => natToBits 6 (b - 97))

/-- src/vendor_consent.rs `serialize_v1`. -/
def serialize_v1 (v : V1) : Except Error String :=
  let language_bytes := utf8Bytes v.consent_language
  if language_bytes.length ≠ 2 then
    .error (.other ("Invalid consent language: " ++ v.consent_language))
  else
    let b0 := language_bytes.getD 0 0
    let b1 := language_bytes.getD 1 0
    if b0 < 97 ∨ 122 < b0 then
      .error (.other ("Invalid char " ++ String.singleton (Char.ofNat b0) ++
        " in consent language at position 0"))
    else if b1 < 97 ∨ 122 < b1 then
      .error (.other ("Invalid char " ++ String.singleton (Char.ofNat b1) ++
        " in consent language at position 1"))
    else do
      let default_consent := v1DefaultConsent v
      let range := (v1Range v).1
      let encoding_type := v1EncodingType v
      let w0 ← writeBits 6 1
      let w1 ← writeTs (tsDecisecs v.created)
      let w2 ← writeTs (tsDecisecs v.last_updated)
      let w3 ← writeBits 12 v.cmp_id
      let w4 ← writeBits 12 v.cmp_version
      let w5 ← writeBits 6 v.consent_screen
      let w6 := langBits language_bytes
      let w7 ← writeBits 12 v.vendor_list_version
      let w8 := writeBytes v.purposes_allowed.get_ref.to_bytes
      let w9 ← writeBits 16 (v.max_vendor_id % 65536)
      let w10 ← writeBits 1 encoding_type
      let header := w0 ++ w1 ++ w2 ++ w3 ++ w4 ++ w5 ++ w6 ++ w7 ++ w8 ++ w9 ++ w10
      let raw ←
        if encoding_type = 0 then
          .ok (byteAlign (header ++ writeBytes v.vendor_consent.get_ref.to_bytes))
        else
          encode_range header default_consent range
      .ok (base64EncodeUrlNoPad (bitsToBytes raw))

/-- `VendorConsent::to_string`. -/
def VendorConsent.to_string : VendorConsent → Except Error String
  | .V1 v => serialize_v1 v

/-! Basic lemmas about the decode monad and the bit reader. -/

theorem res_ok_bind {α β : Type} (a : α) (f : α → Res β) :
    (liftE (Except.ok a) >>= f) = f a := rfl

theorem res_err_bind {α β : Type} (e : Error) (f : α → Res β) :
    (liftE (Except.error e) >>= f) = some (Except.error e) := rfl

theorem liftP_none_bind {α β : Type} (f : α → Res β) :
    (liftP (none : Option α) >>= f) = none := rfl

theorem liftP_some_bind {α β : Type} (a : α) (f : α → Res β) :
    (liftP (some a) >>= f) = f a := rfl

theorem res_liftE_bind_eq_none {α β : Type} {x : Except Error α} {f : α → Res β} :
    (liftE x >>= f) = none ↔ ∃ a, x = .ok a ∧ f a = none := by
  cases x with
  | ok a =>
    rw [res_ok_bind]
    constructor
    · intro h; exact ⟨a, rfl, h⟩
    · rintro ⟨a1, ha, h⟩
      cases ha
      exact h
  | error e =>
    rw [res_err_bind]
    constructor
    · intro h; cases h
    · rintro ⟨a1, ha, h⟩; cases ha

theorem except_bind_ok {α β : Type} (a : α) (f : α → Except Error β) :
    (Except.ok a >>= f) = f a := rfl

theorem except_bind_err {α β : Type} (e : Error) (f : α → Except Error β) :
    (Except.error e >>= f : Except Error β) = Except.error e := rfl

theorem readBits_ok (n : Nat) (bs : List Bool) (h : n ≤ bs.length) :
    readBits n bs = .ok (bitsVal (bs.take n), bs.drop n) := by
  simp [readBits, h]

theorem readBits_eof (n : Nat) (bs : List Bool) (h : bs.length < n) :
    readBits n bs = .error (.ioError .unexpectedEof) := by
  simp only [readBits, if_neg (by omega : ¬ n ≤ bs.length)]

theorem byteBits_bitsVal_eight :
    ∀ a b c d e f g h : Bool,
      byteBits (bitsVal [a, b, c, d, e, f, g, h]) = [a, b, c, d, e, f, g, h] := by
  decide

theorem byteBits_bitsVal_take (bs : List Bool) (h : 8 ≤ bs.length) :
    byteBits (bitsVal (bs.take 8)) = bs.take 8 := by
  rcases bs with _ | ⟨b0, bs⟩
  · simp at h
  rcases bs with _ | ⟨b1, bs⟩
  · simp at h
  rcases bs with _ | ⟨b2, bs⟩
  · simp at h
  rcases bs with _ | ⟨b3, bs⟩
  · simp at h
  rcases bs with _ | ⟨b4, bs⟩
  · simp at h
  rcases bs with _ | ⟨b5, bs⟩
  · simp at h
  rcases bs with _ | ⟨b6, bs⟩
  · simp at h
  rcases bs with _ | ⟨b7, bs⟩
  · simp at h
  exact byteBits_bitsVal_eight b0 b1 b2 b3 b4 b5 b6 b7

theorem readNBytes_ok : ∀ (n : Nat) (bs : List Bool), 8 * n ≤ bs.length →
    ∃ bytes, readNBytes n bs = .ok (bytes, bs.drop (8 * n)) ∧
      bytes.flatMap byteBits = bs.take (8 * n) := by
  intro n
  induction n with
  | zero => intro bs _; exact ⟨[], rfl, rfl⟩
  | succ n ih =>
    intro bs h
    have h8 : 8 ≤ bs.length := by omega
    have hrec : 8 * n ≤ (bs.drop 8).length := by
      rw [List.length_drop]; omega
    obtain ⟨bytes, hb, hflat⟩ := ih (bs.drop 8) hrec
    refine ⟨bitsVal (bs.take 8) :: bytes, ?_, ?_⟩
    · simp only [readNBytes, readBits_ok 8 bs h8, except_bind_ok, hb]
      rw [List.drop_drop]
      have heq : 8 + 8 * n = 8 * (n + 1) := by ring
      rw [heq]
    · have htk : byteBits (bitsVal (bs.take 8)) = bs.take 8 :=
        byteBits_bitsVal_take bs h8
      have heq : 8 * (n + 1) = 8 + 8 * n := by ring
      rw [heq, List.take_add]
      simp only [List.flatMap_cons, htk, hflat]

theorem readNBytes_eof : ∀ (n : Nat) (bs : List Bool), bs.length < 8 * n →
    readNBytes n bs = .error (.ioError .unexpectedEof) := by
  intro n
  induction n with
  | zero => intro bs h; omega
  | succ n ih =>
    intro bs h
    by_cases h8 : 8 ≤ bs.length
    · have hlt : (bs.drop 8).length < 8 * n := by
        rw [List.length_drop]; omega
      simp only [readNBytes, readBits_ok 8 bs h8, except_bind_ok, ih _ hlt, except_bind_err]
    · simp only [readNBytes, readBits_eof 8 bs (by omega), except_bind_err]

/-! Lemmas about `trueIndices` and `BitSet` membership. -/

theorem mem_trueIndices : ∀ (l : List Bool) (k j : Nat),
    j ∈ trueIndices l k ↔ (k ≤ j ∧ l.getD (j - k) false = true) := by
  intro l
  induction l with
  | nil => intro k j; simp [trueIndices]
  | cons b rest ih =>
    intro k j
    cases b with
    | false =>
      rw [show trueIndices (false :: rest) k = trueIndices rest (k + 1) from rfl, ih]
      constructor
      · rintro ⟨h1, h2⟩
        have hjk : j - k = (j - (k + 1)) + 1 := by omega
        rw [hjk, List.getD_cons_succ]
        exact ⟨by omega, h2⟩
      · rintro ⟨h1, h2⟩
        by_cases hj : j = k
        · subst hj
          rw [Nat.sub_self, List.getD_cons_zero] at h2
          cases h2
        · have hjk : j - k = (j - (k + 1)) + 1 := by omega
          rw [hjk, List.getD_cons_succ] at h2
          exact ⟨by omega, h2⟩
    | true =>
      rw [show trueIndices (true :: rest) k = k :: trueIndices rest (k + 1) from rfl,
        List.mem_cons, ih]
      constructor
      · rintro (h | ⟨h1, h2⟩)
        · subst h
          rw [Nat.sub_self, List.getD_cons_zero]
          exact ⟨le_refl _, rfl⟩
        · have hjk : j - k = (j - (k + 1)) + 1 := by omega
          rw [hjk, List.getD_cons_succ]
          exact ⟨by omega, h2⟩
      · rintro ⟨h1, h2⟩
        by_cases hj : j = k
        · exact Or.inl hj
        · have hjk : j - k = (j - (k + 1)) + 1 := by omega
          rw [hjk, List.getD_cons_succ] at h2
          exact Or.inr ⟨by omega, h2⟩

theorem trueIndices_lower {l : List Bool} {k j : Nat} (h : j ∈ trueIndices l k) :
    k ≤ j := ((mem_trueIndices l k j).mp h).1

theorem trueIndices_pairwise : ∀ (l : List Bool) (k : Nat),
    List.Pairwise (· < ·) (trueIndices l k) := by
  intro l
  induction l with
  | nil => intro k; simp [trueIndices]
  | cons b rest ih =>
    intro k
    cases b with
    | false =>
      rw [show trueIndices (false :: rest) k = trueIndices rest (k + 1) from rfl]
      exact ih (k + 1)
    | true =>
      rw [show trueIndices (true :: rest) k = k :: trueIndices rest (k + 1) from rfl]
      refine List.Pairwise.cons ?_ (ih (k + 1))
      intro x hx
      have := trueIndices_lower hx
      omega

theorem trueIndices_length_count : ∀ (l : List Bool) (k : Nat),
    (trueIndices l k).length = l.count true := by
  intro l
  induction l with
  | nil => intro k; simp [trueIndices]
  | cons b rest ih =>
    intro k
    cases b with
    | false =>
      rw [show trueIndices (false :: rest) k = trueIndices rest (k + 1) from rfl, ih]
      simp [List.count_cons]
    | true =>
      rw [show trueIndices (true :: rest) k = k :: trueIndices rest (k + 1) from rfl]
      simp [List.count_cons, ih]

theorem BitSet.contains_iff_mem_iter (s : BitSet) (i : Nat) :
    s.contains i = true ↔ i ∈ s.iter := by
  rw [BitSet.iter, mem_trueIndices]
  simp [BitSet.contains]

theorem BitSet.contains_eq_decide_mem (s : BitSet) (i : Nat) :
    s.contains i = decide (i ∈ s.iter) := by
  by_cases h : i ∈ s.iter
  · simp [h, (BitSet.contains_iff_mem_iter s i).mpr h]
  · simp only [h, decide_eq_false_iff_not.mpr h]
    by_cases hc : s.contains i = true
    · exact absurd ((BitSet.contains_iff_mem_iter s i).mp hc) h
    · simp at hc; exact hc

theorem BitSet.len_eq_iter_length (s : BitSet) : s.len = s.iter.length := by
  rw [BitSet.len, BitSet.iter, trueIndices_length_count]

/-! Structure of `create_true_range`: accumulator shift and bit count. -/

def isSingleEntry : Entry → Bool
  | .single _ => true
  | .range _ _ => false

def isRangeEntry : Entry → Bool
  | .single _ => false
  | .range _ _ => true

/-- Bit weight of an entry list: 17 bits per Single, 33 per Range. -/
def entWeight (es : List Entry) : Nat :=
  17 * es.countP (fun e => isSingleEntry e) + 33 * es.countP (fun e => isRangeEntry e)

theorem entWeight_append (xs ys : List Entry) :
    entWeight (xs ++ ys) = entWeight xs + entWeight ys := by
  simp [entWeight, List.countP_append]
  ring

theorem pushEntry_split (s0 e0 : Nat) (es : List Entry) (c : Nat) :
    pushEntry s0 e0 es c =
      (es ++ (pushEntry s0 e0 [] 0).1, c + (pushEntry s0 e0 [] 0).2) := by
  unfold pushEntry
  by_cases h : s0 = e0 <;> simp [h]

theorem pushEntry_weight (s0 e0 : Nat) :
    (pushEntry s0 e0 [] 0).2 = entWeight (pushEntry s0 e0 [] 0).1 := by
  unfold pushEntry
  by_cases h : s0 = e0 <;> simp [h, entWeight, isSingleEntry, isRangeEntry]

theorem runLoop_shift : ∀ (l : List Nat) (st : Option (Nat × Nat))
    (es : List Entry) (c : Nat),
    runLoop l st (es, c) =
      (es ++ (runLoop l st ([], 0)).1, c + (runLoop l st ([], 0)).2) := by
  intro l
  induction l with
  | nil =>
    intro st es c
    rcases st with _ | ⟨s0, e0⟩
    · simp [runLoop]
    · simp only [runLoop]
      exact pushEntry_split s0 e0 es c
  | cons i r ih =>
    intro st es c
    rcases st with _ | ⟨s0, e0⟩
    · simp only [runLoop]
      exact ih (some (i, i)) es c
    · simp only [runLoop]
      by_cases hcont : i = e0 + 1
      · simp only [if_pos hcont]
        exact ih (some (s0, i)) es c
      · simp only [if_neg hcont]
        rw [pushEntry_split s0 e0 es c, ih (some (i, i)) _ _,
          ih (some (i, i)) (pushEntry s0 e0 [] 0).1 (pushEntry s0 e0 [] 0).2]
        rw [show pushEntry s0 e0 [] 0 = ((pushEntry s0 e0 [] 0).1, (pushEntry s0 e0 [] 0).2) from rfl]
        simp [List.append_assoc, Nat.add_assoc]

theorem runLoop_weight : ∀ (l : List Nat) (st : Option (Nat × Nat)),
    (runLoop l st ([], 0)).2 = entWeight (runLoop l st ([], 0)).1 := by
  intro l
  induction l with
  | nil =>
    intro st
    rcases st with _ | ⟨s0, e0⟩
    · simp [runLoop, entWeight]
    · simp only [runLoop]
      exact pushEntry_weight s0 e0
  | cons i r ih =>
    intro st
    rcases st with _ | ⟨s0, e0⟩
    · simp only [runLoop]
      exact ih (some (i, i))
    · simp only [runLoop]
      by_cases hcont : i = e0 + 1
      · simp only [if_pos hcont]
        exact ih (some (s0, i))
      · simp only [if_neg hcont]
        rw [show pushEntry s0 e0 [] 0 = ((pushEntry s0 e0 [] 0).1, (pushEntry s0 e0 [] 0).2) from rfl,
          runLoop_shift r (some (i, i)) (pushEntry s0 e0 [] 0).1 (pushEntry s0 e0 [] 0).2]
        simp only [entWeight_append]
        rw [pushEntry_weight s0 e0, ih (some (i, i))]

theorem create_true_range_eq (s : BitSet) :
    create_true_range s =
      ((runLoop s.iter none ([], 0)).1, 13 + (runLoop s.iter none ([], 0)).2) := by
  unfold create_true_range
  rw [runLoop_shift s.iter none [] 13]
  simp

theorem create_true_range_count (s : BitSet) :
    (create_true_range s).2 = 13 + entWeight (create_true_range s).1 := by
  rw [create_true_range_eq]
  simp only []
  rw [runLoop_weight s.iter none]

/-! Run decomposition: the spec description of the contiguous-run detector
(section 4.4), compared with the implementation. -/

/-- Entry built from one closed run (0-based endpoints, 1-based IDs). -/
def mkEntry (p : Nat × Nat) : Entry :=
  if p.1 = p.2 then .single (p.1 + 1) else .range (p.1 + 1) (p.2 + 1)

/-- Reference run grouping, following the spec text of section 4.4: group an
ascending list of positions into maximal runs of consecutive values; a run is
closed when the next position is not contiguous, and the final open run is
emitted at the end. -/
def chunks : List Nat → Option (Nat × Nat) → List (Nat × Nat)
  | [], none => []
  | [], some p => [p]
  | i :: r, none => chunks r (some (i, i))
  | i :: r, some (s0, e0) =>
      if i = e0 + 1 then chunks r (some (s0, i))
      else (s0, e0) :: chunks r (some (i, i))

theorem pushEntry_fst (s0 e0 : Nat) :
    (pushEntry s0 e0 [] 0).1 = [mkEntry (s0, e0)] := by
  unfold pushEntry mkEntry
  by_cases h : s0 = e0 <;> simp [h]

theorem runLoop_fst_eq_chunks : ∀ (l : List Nat) (st : Option (Nat × Nat)),
    (runLoop l st ([], 0)).1 = (chunks l st).map mkEntry := by
  intro l
  induction l with
  | nil =>
    intro st
    rcases st with _ | ⟨s0, e0⟩
    · simp [runLoop, chunks]
    · simp only [runLoop, chunks, List.map_cons, List.map_nil]
      exact pushEntry_fst s0 e0
  | cons i r ih =>
    intro st
    rcases st with _ | ⟨s0, e0⟩
    · simp only [runLoop, chunks]
      exact ih (some (i, i))
    · simp only [runLoop, chunks]
      by_cases hcont : i = e0 + 1
      · simp only [if_pos hcont]
        exact ih (some (s0, i))
      · simp only [if_neg hcont, List.map_cons]
        rw [show pushEntry s0 e0 [] 0 = ((pushEntry s0 e0 [] 0).1, (pushEntry s0 e0 [] 0).2) from rfl,
          runLoop_shift r (some (i, i)) (pushEntry s0 e0 [] 0).1 (pushEntry s0 e0 [] 0).2]
        simp only [pushEntry_fst, ih (some (i, i)), List.cons_append, List.nil_append]

/-- Positions covered by one entry (Range is an inclusive interval). -/
def coveredE : Entry → Finset Nat
  | .single x => {x}
  | .range s e => Finset.Icc s e

/-- Positions covered by an entry list. -/
def coveredL : List Entry → Finset Nat
  | [] => ∅
  | e :: es => coveredE e ∪ coveredL es

def chunksCov : List (Nat × Nat) → Finset Nat
  | [] => ∅
  | p :: ps => Finset.Icc p.1 p.2 ∪ chunksCov ps

theorem coveredE_mkEntry (p : Nat × Nat) :
    coveredE (mkEntry p) = (Finset.Icc p.1 p.2).image (· + 1) := by
  unfold mkEntry
  by_cases h : p.1 = p.2
  · simp [h, coveredE, Finset.Icc_self]
  · simp only [if_neg h, coveredE]
    ext x
    simp only [Finset.mem_Icc, Finset.mem_image]
    constructor
    · rintro ⟨h1, h2⟩
      exact ⟨x - 1, ⟨by omega, by omega⟩, by omega⟩
    · rintro ⟨y, ⟨h1, h2⟩, rfl⟩
      omega

theorem coveredL_map_mkEntry : ∀ L : List (Nat × Nat),
    coveredL (L.map mkEntry) = (chunksCov L).image (· + 1) := by
  intro L
  induction L with
  | nil => simp [coveredL, chunksCov]
  | cons p ps ih =>
    simp only [List.map_cons, coveredL, chunksCov, Finset.image_union, ih,
      coveredE_mkEntry]

theorem chunks_spec : ∀ (l : List Nat) (s0 e0 : Nat),
    List.Pairwise (· < ·) l → s0 ≤ e0 → (∀ x ∈ l, e0 < x) →
    chunksCov (chunks l (some (s0, e0))) = Finset.Icc s0 e0 ∪ l.toFinset
    ∧ (∀ p ∈ chunks l (some (s0, e0)), p.1 ≤ p.2 ∧ s0 ≤ p.1)
    ∧ List.Pairwise (fun p q : Nat × Nat => p.2 + 2 ≤ q.1)
        (chunks l (some (s0, e0))) := by
  intro l
  induction l with
  | nil =>
    intro s0 e0 _ hle _
    refine ⟨by simp [chunks, chunksCov], ?_, by simp [chunks]⟩
    intro p hp
    simp only [chunks, List.mem_singleton] at hp
    subst hp
    exact ⟨hle, le_refl _⟩
  | cons i r ih =>
    intro s0 e0 hsort hle hgt
    rw [List.pairwise_cons] at hsort
    obtain ⟨hir, hr⟩ := hsort
    have he0i : e0 < i := hgt i (List.mem_cons_self i r)
    have hgtr : ∀ x ∈ r, e0 < x := fun x hx => hgt x (List.mem_cons_of_mem i hx)
    by_cases hcont : i = e0 + 1
    · have hstep := ih s0 i hr (by omega) hir
      obtain ⟨hcov, hwf, hpw⟩ := hstep
      rw [show chunks (i :: r) (some (s0, e0)) = chunks r (some (s0, i)) from by
        simp [chunks, hcont]]
      refine ⟨?_, ?_, hpw⟩
      · rw [hcov]
        ext x
        simp only [Finset.mem_union, Finset.mem_Icc, List.toFinset_cons,
          Finset.mem_insert, List.mem_toFinset]
        constructor
        · rintro (⟨h1, h2⟩ | hx)
          · by_cases hxe : x ≤ e0
            · exact Or.inl ⟨h1, hxe⟩
            · exact Or.inr (Or.inl (by omega))
          · exact Or.inr (Or.inr hx)
        · rintro (⟨h1, h2⟩ | hx | hx)
          · exact Or.inl ⟨h1, by omega⟩
          · subst hx
            exact Or.inl ⟨by omega, le_refl _⟩
          · exact Or.inr hx
      · intro p hp
        exact hwf p hp
    · have hgap : e0 + 2 ≤ i := by omega
      have hstep := ih i i hr (le_refl _) hir
      obtain ⟨hcov, hwf, hpw⟩ := hstep
      rw [show chunks (i :: r) (some (s0, e0)) =
          (s0, e0) :: chunks r (some (i, i)) from by simp [chunks, hcont]]
      refine ⟨?_, ?_, ?_⟩
      · simp only [chunksCov, hcov, Finset.Icc_self, List.toFinset_cons]
        ext x
        simp only [Finset.mem_union, Finset.mem_singleton, Finset.mem_insert,
          List.mem_toFinset, Finset.mem_Icc]
      · intro p hp
        rcases List.mem_cons.mp hp with hp | hp
        · subst hp
          exact ⟨hle, le_refl _⟩
        · obtain ⟨h1, h2⟩ := hwf p hp
          exact ⟨h1, by omega⟩
      · exact List.Pairwise.cons
          (fun q hq => by
            obtain ⟨_, h2⟩ := hwf q hq
            show e0 + 2 ≤ q.1
            omega) hpw

theorem chunks_spec_none (l : List Nat) (h : List.Pairwise (· < ·) l) :
    chunksCov (chunks l none) = l.toFinset
    ∧ (∀ p ∈ chunks l none, p.1 ≤ p.2)
    ∧ List.Pairwise (fun p q : Nat × Nat => p.2 + 2 ≤ q.1) (chunks l none) := by
  cases l with
  | nil => exact ⟨by simp [chunks, chunksCov], by simp [chunks], by simp [chunks]⟩
  | cons i r =>
    rw [List.pairwise_cons] at h
    obtain ⟨hir, hr⟩ := h
    have hstep := chunks_spec r i i hr (le_refl _) hir
    obtain ⟨hcov, hwf, hpw⟩ := hstep
    rw [show chunks (i :: r) none = chunks r (some (i, i)) from rfl]
    refine ⟨?_, fun p hp => (hwf p hp).1, hpw⟩
    rw [hcov, Finset.Icc_self, List.toFinset_cons, Finset.insert_eq]

/-- Left boundaries of a set of positive naturals: members whose predecessor
is not a member. -/
def leftB (S : Finset Nat) : Finset Nat := S.filter (fun x => ¬ x - 1 ∈ S)

theorem mem_leftB {S : Finset Nat} {x : Nat} :
    x ∈ leftB S ↔ x ∈ S ∧ ¬ x - 1 ∈ S := by
  simp [leftB]

theorem coveredE_interval {e : Entry} {x y z : Nat}
    (hx : x ∈ coveredE e) (hz : z ∈ coveredE e) (h1 : x ≤ y) (h2 : y ≤ z) :
    y ∈ coveredE e := by
  cases e with
  | single w =>
    simp only [coveredE, Finset.mem_singleton] at hx hz ⊢
    omega
  | range a b =>
    simp only [coveredE, Finset.mem_Icc] at hx hz ⊢
    omega

theorem leftB_inter_coveredE (e : Entry) (S : Finset Nat)
    (hsub : coveredE e ⊆ S) : (leftB S ∩ coveredE e).card ≤ 1 := by
  rw [Finset.card_le_one]
  have key : ∀ x ∈ leftB S ∩ coveredE e, ∀ y ∈ leftB S ∩ coveredE e,
      x < y → False := by
    intro x hx y hy hlt
    rw [Finset.mem_inter] at hx hy
    have hy1 : y - 1 ∈ coveredE e :=
      coveredE_interval hx.2 hy.2 (by omega) (by omega)
    have : y - 1 ∈ S := hsub hy1
    exact (mem_leftB.mp hy.1).2 this
  intro x hx y hy
  rcases Nat.lt_trichotomy x y with h | h | h
  · exact absurd (key x hx y hy h) (fun f => f)
  · exact h
  · exact absurd (key y hy x hx h) (fun f => f)

theorem coveredE_subset_coveredL {e : Entry} : ∀ {E : List Entry}, e ∈ E →
    coveredE e ⊆ coveredL E := by
  intro E
  induction E with
  | nil => intro h; cases h
  | cons e1 es ih =>
    intro h
    rcases List.mem_cons.mp h with h | h
    · subst h
      exact Finset.subset_union_left
    · exact (ih h).trans Finset.subset_union_right

theorem leftB_card_le : ∀ (E : List Entry) (S : Finset Nat),
    (∀ e ∈ E, coveredE e ⊆ S) → (leftB S ∩ coveredL E).card ≤ E.length := by
  intro E
  induction E with
  | nil => intro S _; simp [coveredL]
  | cons e es ih =>
    intro S h
    have h1 : (leftB S ∩ coveredE e).card ≤ 1 :=
      leftB_inter_coveredE e S (h e (List.mem_cons_self e es))
    have h2 : (leftB S ∩ coveredL es).card ≤ es.length :=
      ih S (fun x hx => h x (List.mem_cons_of_mem e hx))
    calc (leftB S ∩ coveredL (e :: es)).card
        = (leftB S ∩ (coveredE e ∪ coveredL es)).card := rfl
      _ = ((leftB S ∩ coveredE e) ∪ (leftB S ∩ coveredL es)).card := by
          rw [Finset.inter_union_distrib_left]
      _ ≤ (leftB S ∩ coveredE e).card + (leftB S ∩ coveredL es).card :=
          Finset.card_union_le _ _
      _ ≤ 1 + es.length := by omega
      _ = (e :: es).length := by simp [List.length_cons]; omega

theorem minimality_aux (E2 : List Entry) (S : Finset Nat)
    (h : coveredL E2 = S) : (leftB S).card ≤ E2.length := by
  have hsubs : ∀ e ∈ E2, coveredE e ⊆ S := by
    intro e he
    rw [← h]
    exact coveredE_subset_coveredL he
  have hone : leftB S ∩ coveredL E2 = leftB S := by
    rw [h]
    exact Finset.inter_eq_left.mpr (Finset.filter_subset _ _)
  calc (leftB S).card = (leftB S ∩ coveredL E2).card := by rw [hone]
    _ ≤ E2.length := leftB_card_le E2 S hsubs

theorem mem_chunksCov : ∀ (L : List (Nat × Nat)) (x : Nat),
    x ∈ chunksCov L ↔ ∃ p ∈ L, p.1 ≤ x ∧ x ≤ p.2 := by
  intro L
  induction L with
  | nil => intro x; simp [chunksCov]
  | cons p ps ih =>
    intro x
    simp only [chunksCov, Finset.mem_union, Finset.mem_Icc, ih, List.mem_cons]
    constructor
    · rintro (⟨h1, h2⟩ | ⟨q, hq, h1, h2⟩)
      · exact ⟨p, Or.inl rfl, h1, h2⟩
      · exact ⟨q, Or.inr hq, h1, h2⟩
    · rintro ⟨q, hq | hq, h1, h2⟩
      · subst hq; exact Or.inl ⟨h1, h2⟩
      · exact Or.inr ⟨q, hq, h1, h2⟩

theorem starts_mem_leftB (L : List (Nat × Nat))
    (hwf : ∀ p ∈ L, p.1 ≤ p.2)
    (hpw : List.Pairwise (fun p q : Nat × Nat => p.2 + 2 ≤ q.1) L)
    (p : Nat × Nat) (hp : p ∈ L) :
    p.1 + 1 ∈ leftB ((chunksCov L).image (· + 1)) := by
  rw [mem_leftB]
  constructor
  · rw [Finset.mem_image]
    exact ⟨p.1, (mem_chunksCov L p.1).mpr ⟨p, hp, le_refl _, hwf p hp⟩, rfl⟩
  · intro hmem
    rw [Nat.add_sub_cancel, Finset.mem_image] at hmem
    obtain ⟨t, ht, hti⟩ := hmem
    obtain ⟨q, hq, hq1, hq2⟩ := (mem_chunksCov L t).mp ht
    have hsym : List.Pairwise
        (fun a b : Nat × Nat => a.2 + 2 ≤ b.1 ∨ b.2 + 2 ≤ a.1) L :=
      hpw.imp (fun h => Or.inl h)
    by_cases hpq : p = q
    · subst hpq
      omega
    · have := List.Pairwise.forall (fun a b h => h.symm) hsym hp hq hpq
      have hwp := hwf p hp
      have hwq := hwf q hq
      rcases this with h | h <;> omega

theorem pairwise_starts : ∀ (L : List (Nat × Nat)),
    (∀ p ∈ L, p.1 ≤ p.2) →
    List.Pairwise (fun p q : Nat × Nat => p.2 + 2 ≤ q.1) L →
    List.Pairwise (· < ·) (L.map (fun p => p.1 + 1)) := by
  intro L
  induction L with
  | nil => intro _ _; simp
  | cons p ps ih =>
    intro hwf hpw
    rw [List.pairwise_cons] at hpw
    obtain ⟨hhead, htail⟩ := hpw
    rw [List.map_cons]
    refine List.Pairwise.cons ?_ (ih (fun q hq => hwf q (List.mem_cons_of_mem p hq)) htail)
    intro y hy
    rw [List.mem_map] at hy
    obtain ⟨q, hq, rfl⟩ := hy
    have := hhead q hq
    have := hwf p (List.mem_cons_self p ps)
    omega

theorem chunks_length_le (L : List (Nat × Nat))
    (hwf : ∀ p ∈ L, p.1 ≤ p.2)
    (hpw : List.Pairwise (fun p q : Nat × Nat => p.2 + 2 ≤ q.1) L) :
    L.length ≤ (leftB ((chunksCov L).image (· + 1))).card := by
  have hnodup : (L.map (fun p => p.1 + 1)).Nodup :=
    (pairwise_starts L hwf hpw).imp Nat.ne_of_lt
  have hsub : (L.map (fun p => p.1 + 1)).toFinset ⊆
      leftB ((chunksCov L).image (· + 1)) := by
    intro x hx
    rw [List.mem_toFinset, List.mem_map] at hx
    obtain ⟨p, hp, rfl⟩ := hx
    exact starts_mem_leftB L hwf hpw p hp
  calc L.length = (L.map (fun p => p.1 + 1)).length := by rw [List.length_map]
    _ = (L.map (fun p => p.1 + 1)).toFinset.card :=
        (List.toFinset_card_of_nodup hnodup).symm
    _ ≤ (leftB ((chunksCov L).image (· + 1))).card := Finset.card_le_card hsub

/-! Bitfield decoding: actual consumption of the parser. -/

/-- Total number of bits the bitfield parser consumes: `ceil(max/8)` whole
bytes plus, when `max % 8` is nonzero, another `max % 8` bits. -/
def bitfieldBitsRead (max_vendor_id : Nat) : Nat :=
  8 * (max_vendor_id / 8 + if max_vendor_id % 8 = 0 then 0 else 1)
    + max_vendor_id % 8

theorem getD_take {l : List Bool} {n i : Nat} (h : i < n) :
    (l.take n).getD i false = l.getD i false := by
  rw [List.getD_eq_getElem?_getD, List.getD_eq_getElem?_getD,
    List.getElem?_take_of_lt h]

theorem getD_append_left {l1 l2 : List Bool} {i : Nat} (h : i < l1.length) :
    (l1 ++ l2).getD i false = l1.getD i false := by
  rw [List.getD_eq_getElem?_getD, List.getD_eq_getElem?_getD,
    List.getElem?_append_left h]

theorem bitfield_consume_spec (max_vendor_id : Nat) (bs : List Bool) :
    (bitfieldBitsRead max_vendor_id ≤ bs.length →
      ∃ s, parse_v1_bitfield max_vendor_id bs =
          .ok (s, bs.drop (bitfieldBitsRead max_vendor_id)) ∧
        ∀ i, i < max_vendor_id → s.contains i = bs.getD i false)
    ∧ (bs.length < bitfieldBitsRead max_vendor_id →
      parse_v1_bitfield max_vendor_id bs = .error (.ioError .unexpectedEof)) := by
  by_cases h0 : max_vendor_id % 8 = 0
  · have hread : bitfieldBitsRead max_vendor_id = 8 * (max_vendor_id / 8) := by
      simp [bitfieldBitsRead, h0]
    have hmaxle : max_vendor_id ≤ 8 * (max_vendor_id / 8) := by omega
    constructor
    · intro h
      rw [hread] at h
      obtain ⟨bytes, hrn, hflat⟩ := readNBytes_ok (max_vendor_id / 8) bs h
      refine ⟨BitSet.from_bytes bytes, ?_, ?_⟩
      · simp only [parse_v1_bitfield, h0, reduceIte, Nat.add_zero, hrn,
          except_bind_ok, gt_iff_lt, Nat.lt_irrefl, if_false]
        rw [hread]
      · intro i hi
        simp only [BitSet.from_bytes, BitSet.contains, hflat]
        exact getD_take (by omega)
    · intro h
      rw [hread] at h
      simp only [parse_v1_bitfield, h0, reduceIte, Nat.add_zero,
        readNBytes_eof (max_vendor_id / 8) bs h, except_bind_err]
  · have hread : bitfieldBitsRead max_vendor_id =
        8 * (max_vendor_id / 8 + 1) + max_vendor_id % 8 := by
      simp [bitfieldBitsRead, h0]
    have hmaxle : max_vendor_id ≤ 8 * (max_vendor_id / 8 + 1) := by omega
    have hgt : max_vendor_id % 8 > 0 := by omega
    constructor
    · intro h
      rw [hread] at h
      obtain ⟨bytes, hrn, hflat⟩ :=
        readNBytes_ok (max_vendor_id / 8 + 1) bs (by omega)
      have hlen1 : max_vendor_id % 8 ≤
          (bs.drop (8 * (max_vendor_id / 8 + 1))).length := by
        rw [List.length_drop]; omega
      refine ⟨BitSet.from_bytes (bytes ++
        [bitsVal ((bs.drop (8 * (max_vendor_id / 8 + 1))).take (max_vendor_id % 8))]),
        ?_, ?_⟩
      · simp only [parse_v1_bitfield, h0, reduceIte, hrn, except_bind_ok,
          if_pos hgt, readBits_ok (max_vendor_id % 8) _ hlen1, except_bind_ok]
        rw [List.drop_drop, hread]
      · intro i hi
        simp only [BitSet.from_bytes, BitSet.contains, List.flatMap_append, hflat]
        rw [getD_append_left (by rw [List.length_take]; omega)]
        exact getD_take (by omega)
    · intro h
      rw [hread] at h
      by_cases hby : 8 * (max_vendor_id / 8 + 1) ≤ bs.length
      · obtain ⟨bytes, hrn, _⟩ := readNBytes_ok (max_vendor_id / 8 + 1) bs hby
        have hlt : (bs.drop (8 * (max_vendor_id / 8 + 1))).length <
            max_vendor_id % 8 := by
          rw [List.length_drop]; omega
        simp only [parse_v1_bitfield, h0, reduceIte, hrn, except_bind_ok,
          if_pos hgt, readBits_eof (max_vendor_id % 8) _ hlt, except_bind_err]
      · simp only [parse_v1_bitfield, h0, reduceIte,
          readNBytes_eof (max_vendor_id / 8 + 1) bs (by omega), except_bind_err]

/-- C2, amended: in the bitfield branch the decoder consumes
`8 * ceil(max_vendor_id / 8)` bits of whole bytes and then, when
`max_vendor_id % 8` is nonzero, an additional `max_vendor_id % 8` bits
(`bitfieldBitsRead` bits in total, more than the `ceil(max_vendor_id / 8)`
bytes the claim states; for max_vendor_id = 2011 that is 252 bytes plus 3
further bits, 2019 bits); vendor ID `i + 1` corresponds to payload bit `i`;
with fewer bits available the parse fails with an unexpected-EOF error. -/
theorem claim_c2_amended (max_vendor_id : Nat) (bs : List Bool) :
    (bitfieldBitsRead max_vendor_id ≤ bs.length →
      ∃ s, parse_v1_bitfield max_vendor_id bs =
          .ok (s, bs.drop (bitfieldBitsRead max_vendor_id)) ∧
        ∀ i, i < max_vendor_id → s.contains i = bs.getD i false)
    ∧ (bs.length < bitfieldBitsRead max_vendor_id →
      parse_v1_bitfield max_vendor_id bs = .error (.ioError .unexpectedEof)) :=
  bitfield_consume_spec max_vendor_id bs

/-- C2 counterexample: the claim says the bitfield branch for
max_vendor_id = 2011 consumes ceil(2011/8) = 252 bytes (2016 bits) in total;
given a stream of exactly 2016 bits the parser instead fails with an
unexpected-EOF error, because it reads 252 whole bytes and then three
further bits (2019 bits in total). -/
theorem claim_c2_counterexample :
    parse_v1_bitfield 2011 (List.replicate 2016 false) =
      .error (.ioError .unexpectedEof) :=
  (bitfield_consume_spec 2011 (List.replicate 2016 false)).2
    (by rw [List.length_replicate]; decide)

def c2wBits : List Bool :=
  [true, false, true, false, false, false, false, false, true, false, true]

/-- Witness for the amended C2 at max_vendor_id = 3 with an 11-bit input
(8 + 3 bits, exactly `bitfieldBitsRead 3`). -/
theorem claim_c2_witness :
    ∃ s, parse_v1_bitfield 3 c2wBits =
        .ok (s, c2wBits.drop (bitfieldBitsRead 3)) ∧
      ∀ i, i < 3 → s.contains i = c2wBits.getD i false :=
  (claim_c2_amended 3 c2wBits).1 (by decide)

/-! Range decoding: entry extraction and application. -/

/-- The entry reads of the range loop, collecting the entries without
touching the bit vector (pure reading, so it never panics). -/
def readEntriesLoop : Nat → List Bool → Except Error (List Entry × List Bool)
  | 0, bs => .ok ([], bs)
  | n + 1, bs => do
      let (t, bs1) ← readBits 1 bs
      if t = 0 then do
        let (id, bs2) ← readBits 16 bs1
        let (es, bs3) ← readEntriesLoop n bs2
        .ok (.single id :: es, bs3)
      else do
        let (s, bs2) ← readBits 16 bs1
        let (e, bs3) ← readBits 16 bs2
        let (es, bs4) ← readEntriesLoop n bs3
        .ok (.range s e :: es, bs4)

/-- The reads performed by `parse_v1_range`: default bit, 12-bit entry
count, then the entries. -/
def readRangeEntries (bs : List Bool) :
    Except Error (Bool × List Entry × List Bool) := do
  let (d, bs1) ← readBits 1 bs
  let (num_entries, bs2) ← readBits 12 bs1
  let (es, bs3) ← readEntriesLoop num_entries bs2
  .ok (decide (d = 1), es, bs3)

/-- Application of one decoded entry to the bit vector. -/
def applyEntry (dc : Bool) (buf : BitVec) : Entry → Option BitVec
  | .single id => setConsent dc buf id
  | .range s e => setRangeIds dc buf s e

/-- Application of the decoded entries in order. -/
def applyEntries (dc : Bool) : List Entry → BitVec → Option BitVec
  | [], buf => some buf
  | e :: es, buf =>
      match applyEntry dc buf e with
      | none => none
      | some buf1 => applyEntries dc es buf1

/-- An entry whose application panics against a bit vector of `max` bits:
a Single with ID 0 (the 1-based-to-0-based subtraction underflows) or an ID
beyond `max` (the BitVec::set bound assertion fails); a nonempty Range
starting at 0 or reaching beyond `max`. -/
def EntryBad (max : Nat) : Entry → Prop
  | .single id => id = 0 ∨ max < id
  | .range s e => s = 0 ∨ (s ≤ e ∧ max < e)

theorem setConsent_none_iff (dc : Bool) (buf : BitVec) (id : Nat) :
    setConsent dc buf id = none ↔ (id = 0 ∨ buf.nbits < id) := by
  by_cases h : 1 ≤ id
  · have hsub : rustSub id 1 = some (id - 1) := by simp [rustSub, h]
    by_cases h2 : id - 1 < buf.bits.length
    · have hset : buf.set (id - 1) (!dc) = some ⟨buf.bits.set (id - 1) (!dc)⟩ := by
        simp [BitVec.set, h2]
      simp only [setConsent, hsub, hset]
      constructor
      · intro hc; cases hc
      · intro hc
        rw [BitVec.nbits] at hc
        omega
    · have hset : buf.set (id - 1) (!dc) = none := by
        simp only [BitVec.set, if_neg h2]
      simp only [setConsent, hsub, hset]
      constructor
      · intro _
        right
        rw [BitVec.nbits]
        omega
      · intro _; trivial
  · have hsub : rustSub id 1 = none := by
      simp only [rustSub, if_neg h]
    simp only [setConsent, hsub]
    constructor
    · intro _
      left
      omega
    · intro _; trivial

theorem setConsent_some_length {dc : Bool} {buf : BitVec} {id : Nat}
    {buf1 : BitVec} (h : setConsent dc buf id = some buf1) :
    buf1.nbits = buf.nbits := by
  rw [setConsent] at h
  cases hsub : rustSub id 1 with
  | none => rw [hsub] at h; cases h
  | some j =>
    rw [hsub] at h
    simp only [BitVec.set] at h
    by_cases h2 : j < buf.bits.length
    · rw [if_pos h2] at h
      cases h
      simp [BitVec.nbits, List.length_set]
    · rw [if_neg h2] at h
      cases h

theorem setIdsLoop_spec (dc : Bool) : ∀ (ids : List Nat) (buf : BitVec),
    (setIdsLoop dc buf ids = none ↔
      ∃ id ∈ ids, id = 0 ∨ buf.nbits < id)
    ∧ (∀ buf1, setIdsLoop dc buf ids = some buf1 →
      buf1.nbits = buf.nbits) := by
  intro ids
  induction ids with
  | nil =>
    intro buf
    refine ⟨by simp [setIdsLoop], ?_⟩
    intro buf1 h
    simp only [setIdsLoop] at h
    cases h
    rfl
  | cons id ids ih =>
    intro buf
    cases hsc : setConsent dc buf id with
    | none =>
      simp only [setIdsLoop, hsc]
      have hbad := (setConsent_none_iff dc buf id).mp hsc
      refine ⟨?_, ?_⟩
      · constructor
        · intro _
          exact ⟨id, List.mem_cons_self id ids, hbad⟩
        · intro _; trivial
      · intro buf1 h; cases h
    | some buf2 =>
      simp only [setIdsLoop, hsc]
      have hlen : buf2.nbits = buf.nbits := setConsent_some_length hsc
      have hgood : ¬ (id = 0 ∨ buf.nbits < id) := by
        intro hc
        rw [(setConsent_none_iff dc buf id).mpr hc] at hsc
        cases hsc
      obtain ⟨ih1, ih2⟩ := ih buf2
      refine ⟨?_, ?_⟩
      · rw [ih1, hlen]
        constructor
        · rintro ⟨j, hj, hb⟩
          exact ⟨j, List.mem_cons_of_mem id hj, hb⟩
        · rintro ⟨j, hj, hb⟩
          rcases List.mem_cons.mp hj with hj | hj
          · subst hj; exact absurd hb hgood
          · exact ⟨j, hj, hb⟩
      · intro buf1 h
        rw [ih2 buf1 h, hlen]

theorem mem_range'_iff {m s n : Nat} :
    m ∈ List.range' s n ↔ s ≤ m ∧ m < s + n := by
  induction n generalizing s with
  | zero => simp [List.range']
  | succ n ih =>
    rw [List.range'_succ, List.mem_cons, ih]
    omega

theorem setRangeIds_none_iff (dc : Bool) (buf : BitVec) (s e : Nat) :
    setRangeIds dc buf s e = none ↔
      (s = 0 ∨ (s ≤ e ∧ buf.nbits < e)) := by
  unfold setRangeIds
  rw [(setIdsLoop_spec dc (List.range' s (e + 1 - s)) buf).1]
  constructor
  · rintro ⟨id, hid, hbad⟩
    rw [mem_range'_iff] at hid
    omega
  · intro h
    rcases h with h | ⟨h1, h2⟩
    · exact ⟨0, by rw [mem_range'_iff]; omega, Or.inl rfl⟩
    · exact ⟨e, by rw [mem_range'_iff]; omega, Or.inr h2⟩

theorem setRangeIds_some_length {dc : Bool} {buf : BitVec} {s e : Nat}
    {buf1 : BitVec} (h : setRangeIds dc buf s e = some buf1) :
    buf1.nbits = buf.nbits :=
  (setIdsLoop_spec dc (List.range' s (e + 1 - s)) buf).2 buf1 h

theorem applyEntry_none_iff (dc : Bool) (buf : BitVec) (e : Entry) :
    applyEntry dc buf e = none ↔ EntryBad buf.nbits e := by
  cases e with
  | single id => exact setConsent_none_iff dc buf id
  | range s t => exact setRangeIds_none_iff dc buf s t

theorem applyEntry_some_length {dc : Bool} {buf : BitVec} {e : Entry}
    {buf1 : BitVec} (h : applyEntry dc buf e = some buf1) :
    buf1.nbits = buf.nbits := by
  cases e with
  | single id => exact setConsent_some_length h
  | range s t => exact setRangeIds_some_length h

theorem applyEntries_none_iff (dc : Bool) : ∀ (es : List Entry) (buf : BitVec),
    (applyEntries dc es buf = none ↔ ∃ e ∈ es, EntryBad buf.nbits e) := by
  intro es
  induction es with
  | nil => intro buf; simp [applyEntries]
  | cons e es ih =>
    intro buf
    cases hae : applyEntry dc buf e with
    | none =>
      simp only [applyEntries, hae]
      have hbad := (applyEntry_none_iff dc buf e).mp hae
      constructor
      · intro _
        exact ⟨e, List.mem_cons_self e es, hbad⟩
      · intro _; trivial
    | some buf2 =>
      simp only [applyEntries, hae]
      have hlen : buf2.nbits = buf.nbits := applyEntry_some_length hae
      have hgood : ¬ EntryBad buf.nbits e := by
        intro hc
        rw [(applyEntry_none_iff dc buf e).mpr hc] at hae
        cases hae
      rw [ih buf2, hlen]
      constructor
      · rintro ⟨e1, he1, hb⟩
        exact ⟨e1, List.mem_cons_of_mem e he1, hb⟩
      · rintro ⟨e1, he1, hb⟩
        rcases List.mem_cons.mp he1 with he1 | he1
        · subst he1; exact absurd hb hgood
        · exact ⟨e1, he1, hb⟩

theorem rangeLoop_eq (dc : Bool) : ∀ (n : Nat) (bs : List Bool) (buf : BitVec)
    (es : List Entry) (rest : List Bool),
    readEntriesLoop n bs = .ok (es, rest) →
    rangeLoop n dc buf bs =
      (liftP (applyEntries dc es buf) >>= fun b => pure (b, rest)) := by
  intro n
  induction n with
  | zero =>
    intro bs buf es rest h
    simp only [readEntriesLoop] at h
    cases h
    rfl
  | succ n ih =>
    intro bs buf es rest h
    simp only [readEntriesLoop] at h
    cases hrb : readBits 1 bs with
    | error e1 => rw [hrb, except_bind_err] at h; cases h
    | ok tp =>
      obtain ⟨t, bs1⟩ := tp
      rw [hrb, except_bind_ok] at h
      simp only [rangeLoop, hrb, res_ok_bind]
      by_cases ht : t = 0
      · rw [if_pos ht] at h ⊢
        cases hid : readBits 16 bs1 with
        | error e1 => rw [hid, except_bind_err] at h; cases h
        | ok ip =>
          obtain ⟨id, bs2⟩ := ip
          rw [hid, except_bind_ok] at h
          simp only [hid, res_ok_bind]
          cases hre : readEntriesLoop n bs2 with
          | error e1 => rw [hre, except_bind_err] at h; cases h
          | ok ep =>
            obtain ⟨es1, bs3⟩ := ep
            rw [hre, except_bind_ok] at h
            cases h
            cases hsc : setConsent dc buf id with
            | none =>
              rw [show applyEntries dc (Entry.single id :: es1) buf = none from by
                simp only [applyEntries, applyEntry, hsc]]
              rfl
            | some buf1 =>
              rw [show applyEntries dc (Entry.single id :: es1) buf =
                applyEntries dc es1 buf1 from by
                  simp only [applyEntries, applyEntry, hsc]]
              exact ih bs2 buf1 es1 bs3 hre
      · rw [if_neg ht] at h ⊢
        cases hs1 : readBits 16 bs1 with
        | error e1 => rw [hs1, except_bind_err] at h; cases h
        | ok sp =>
          obtain ⟨sv, bs2⟩ := sp
          rw [hs1, except_bind_ok] at h
          simp only [hs1, res_ok_bind]
          cases he1 : readBits 16 bs2 with
          | error e1 => rw [he1, except_bind_err] at h; cases h
          | ok evp =>
            obtain ⟨ev, bs3⟩ := evp
            rw [he1, except_bind_ok] at h
            simp only [he1, res_ok_bind]
            cases hre : readEntriesLoop n bs3 with
            | error e1 => rw [hre, except_bind_err] at h; cases h
            | ok ep =>
              obtain ⟨es1, bs4⟩ := ep
              rw [hre, except_bind_ok] at h
              cases h
              cases hsc : setRangeIds dc buf sv ev with
              | none =>
                rw [show applyEntries dc (Entry.range sv ev :: es1) buf = none from by
                  simp only [applyEntries, applyEntry, hsc]]
                rfl
              | some buf1 =>
                rw [show applyEntries dc (Entry.range sv ev :: es1) buf =
                  applyEntries dc es1 buf1 from by
                    simp only [applyEntries, applyEntry, hsc]]
                exact ih bs3 buf1 es1 bs4 hre

theorem parse_v1_range_eq {max_vendor_id : Nat} {bs : List Bool} {d : Bool}
    {es : List Entry} {rest : List Bool}
    (h : readRangeEntries bs = .ok (d, es, rest)) :
    parse_v1_range max_vendor_id bs =
      (liftP (applyEntries d es (BitVec.from_elem max_vendor_id d)) >>=
        fun buf => pure (BitSet.from_bit_vec buf, rest)) := by
  simp only [readRangeEntries] at h
  cases hrb : readBits 1 bs with
  | error e1 => rw [hrb, except_bind_err] at h; cases h
  | ok dp =>
    obtain ⟨d0, bs1⟩ := dp
    rw [hrb, except_bind_ok] at h
    cases hrn : readBits 12 bs1 with
    | error e1 => rw [hrn, except_bind_err] at h; cases h
    | ok np =>
      obtain ⟨num, bs2⟩ := np
      rw [hrn, except_bind_ok] at h
      cases hre : readEntriesLoop num bs2 with
      | error e1 => rw [hre, except_bind_err] at h; cases h
      | ok ep =>
        obtain ⟨es1, bs3⟩ := ep
        rw [hre, except_bind_ok] at h
        cases h
        simp only [parse_v1_range, hrb, res_ok_bind, hrn, res_ok_bind]
        rw [rangeLoop_eq (decide (d0 = 1)) num bs2
          (BitVec.from_elem max_vendor_id (decide (d0 = 1))) es1 bs3 hre]
        cases hap : applyEntries (decide (d0 = 1)) es1
            (BitVec.from_elem max_vendor_id (decide (d0 = 1))) with
        | none => rfl
        | some buf => rfl

theorem parse_v1_none {bs : List Bool} (h : parse_v1 bs = none) :
    ∃ max_vendor_id bs2, parse_v1_range max_vendor_id bs2 = none := by
  simp only [parse_v1] at h
  rcases res_liftE_bind_eq_none.mp h with ⟨⟨cr, bs1⟩, _, h⟩
  rcases res_liftE_bind_eq_none.mp h with ⟨⟨lu, bs2⟩, _, h⟩
  rcases res_liftE_bind_eq_none.mp h with ⟨⟨ci, bs3⟩, _, h⟩
  rcases res_liftE_bind_eq_none.mp h with ⟨⟨cv, bs4⟩, _, h⟩
  rcases res_liftE_bind_eq_none.mp h with ⟨⟨cs, bs5⟩, _, h⟩
  rcases res_liftE_bind_eq_none.mp h with ⟨⟨l0, bs6⟩, _, h⟩
  rcases res_liftE_bind_eq_none.mp h with ⟨⟨l1, bs7⟩, _, h⟩
  rcases res_liftE_bind_eq_none.mp h with ⟨lang, _, h⟩
  rcases res_liftE_bind_eq_none.mp h with ⟨⟨vlv, bs8⟩, _, h⟩
  rcases res_liftE_bind_eq_none.mp h with ⟨⟨pb, bs9⟩, _, h⟩
  rcases res_liftE_bind_eq_none.mp h with ⟨⟨mx, bs10⟩, _, h⟩
  rcases res_liftE_bind_eq_none.mp h with ⟨⟨sel, bs11⟩, _, h⟩
  by_cases hsel : sel = 0
  · rw [if_pos hsel] at h
    rcases res_liftE_bind_eq_none.mp h with ⟨⟨vc, rest⟩, _, h⟩
    exact Option.noConfusion h
  · rw [if_neg hsel] at h
    cases hpr : parse_v1_range mx bs11 with
    | none => exact ⟨mx, bs11, hpr⟩
    | some r =>
      rw [hpr] at h
      cases r with
      | error e => exact Option.noConfusion h
      | ok p =>
        obtain ⟨vc, rest⟩ := p
        exact Option.noConfusion h

theorem from_str_none {s : String} (h : from_str s = none) :
    ∃ max_vendor_id bs2, parse_v1_range max_vendor_id bs2 = none := by
  simp only [from_str] at h
  rcases res_liftE_bind_eq_none.mp h with ⟨data, _, h⟩
  rcases res_liftE_bind_eq_none.mp h with ⟨⟨ver, bs⟩, _, h⟩
  by_cases hv : ver = 1
  · rw [if_pos hv] at h
    cases hp : parse_v1 bs with
    | none => exact parse_v1_none hp
    | some r =>
      rw [hp] at h
      cases r with
      | error e => exact Option.noConfusion h
      | ok v => exact Option.noConfusion h
  · rw [if_neg hv] at h
    exact Option.noConfusion h

/-- Bit input of the spec example for the range branch: default bit 0,
entry count 2, Single(5), Range(10,12). -/
def c4Bits : List Bool :=
  [false] ++ natToBits 12 2 ++ [false] ++ natToBits 16 5 ++ [true] ++
    natToBits 16 10 ++ natToBits 16 12

def c4SetBits : List Bool :=
  [false, false, false, false, true, false, false, false, false, true,
    true, true] ++ List.replicate 8 false

def c4Set : BitSet := BitSet.from_bit_vec ⟨c4SetBits⟩

/-- C4: when the range branch reads its entries successfully, the resulting
vendor-consent set is exactly a bit vector of length max_vendor_id
initialized to default_consent with every covered ID (index id - 1) of each
entry, in order, set to the negation of default_consent; and decoding the
entries Single(5), Range(10,12) with default_consent = false over
max_vendor_id = 20 yields exactly the set of IDs 5, 10, 11, 12
(0-based indices 4, 9, 10, 11). -/
theorem claim_c4 :
    (∀ (max_vendor_id : Nat) (bs : List Bool) (d : Bool) (es : List Entry)
      (rest : List Bool), readRangeEntries bs = .ok (d, es, rest) →
      parse_v1_range max_vendor_id bs =
        (liftP (applyEntries d es (BitVec.from_elem max_vendor_id d)) >>=
          fun buf => pure (BitSet.from_bit_vec buf, rest)))
    ∧ parse_v1_range 20 c4Bits = some (.ok (c4Set, []))
    ∧ (∀ i, c4Set.contains i = decide (i ∈ ([4, 9, 10, 11] : List Nat))) := by
  refine ⟨?_, by decide, ?_⟩
  · intro max_vendor_id bs d es rest h
    exact parse_v1_range_eq h
  · intro i
    rw [BitSet.contains_eq_decide_mem]
    rw [show c4Set.iter = [4, 9, 10, 11] from rfl]

/-- Witness for C4 at the spec example: entries Single(5), Range(10,12),
default_consent = false, max_vendor_id = 20. -/
theorem claim_c4_witness :
    readRangeEntries c4Bits =
      .ok (false, [Entry.single 5, Entry.range 10 12], [])
    ∧ parse_v1_range 20 c4Bits =
      (liftP (applyEntries false [Entry.single 5, Entry.range 10 12]
        (BitVec.from_elem 20 false)) >>= fun buf =>
        pure (BitSet.from_bit_vec buf, [])) := by
  refine ⟨by decide, ?_⟩
  exact claim_c4.1 20 c4Bits false [Entry.single 5, Entry.range 10 12] []
    (by decide)

/-- C9, amended: decoding does not panic outside the range branch, and the
range branch panics exactly on an out-of-domain entry: when the entry reads
succeed, parse_v1_range panics if and only if some decoded entry references
vendor ID 0 or an ID above max_vendor_id (`EntryBad`); every panic of
from_str comes from such a parse_v1_range call.  (The original claim, that
from_str never panics, is refuted by `claim_c9_counterexample`.) -/
theorem claim_c9_amended :
    (∀ (max_vendor_id : Nat) (bs : List Bool) (d : Bool) (es : List Entry)
      (rest : List Bool), readRangeEntries bs = .ok (d, es, rest) →
      (parse_v1_range max_vendor_id bs = none ↔
        ∃ e ∈ es, EntryBad max_vendor_id e))
    ∧ (∀ s : String, from_str s = none →
      ∃ max_vendor_id bs, parse_v1_range max_vendor_id bs = none) := by
  constructor
  · intro max_vendor_id bs d es rest h
    rw [parse_v1_range_eq h]
    have hn : (BitVec.from_elem max_vendor_id d).nbits = max_vendor_id := by
      simp [BitVec.from_elem, BitVec.nbits]
    cases hap : applyEntries d es (BitVec.from_elem max_vendor_id d) with
    | none =>
      constructor
      · intro _
        have hx := (applyEntries_none_iff d es (BitVec.from_elem max_vendor_id d)).mp hap
        rw [hn] at hx
        exact hx
      · intro _; rfl
    | some buf =>
      constructor
      · intro hc
        exact Option.noConfusion hc
      · intro hbad
        exfalso
        have hx : applyEntries d es (BitVec.from_elem max_vendor_id d) = none := by
          apply (applyEntries_none_iff d es (BitVec.from_elem max_vendor_id d)).mpr
          rw [hn]
          exact hbad
        rw [hx] at hap
        cases hap
  · intro s h
    exact from_str_none h

def c9Str : String := "BAAAAAAAAAAAAAAAAAAAAAAAAAABSABAAAA"

set_option maxRecDepth 8000 in
/-- C9 counterexample: from_str panics (modelled as `none`) on this
well-formed base64 input, whose range payload holds the single entry with
vendor ID 0: the 1-based-to-0-based subtraction underflows inside
`buf.set(id - 1, ...)`.  The claim says from_str always returns Ok or Err. -/
theorem claim_c9_counterexample : from_str c9Str = none := by
  decide

def c9wBits : List Bool := [false] ++ natToBits 12 1 ++ [false] ++ natToBits 16 0

/-- Witness for the amended C9: a range payload with one Single(0) entry
over max_vendor_id = 20 panics. -/
theorem claim_c9_witness : parse_v1_range 20 c9wBits = none :=
  (claim_c9_amended.1 20 c9wBits false [Entry.single 0] [] (by decide)).mpr
    ⟨Entry.single 0, by decide, Or.inl rfl⟩

/-- C3: for every encodable V1 record, the encoder sets default_consent to
true exactly when the vendor-consent cardinality is at least
max_vendor_id / 2 under floor division, builds the false-range (complement
over 1..=max_vendor_id) when default_consent is true and the true-range
otherwise, computes the candidate bit length as 13 + 17 per Single entry +
33 per Range entry, and selects the bitfield encoding exactly when
max_vendor_id is at most that length (ties favoring the bitfield),
otherwise the range encoding. -/
theorem claim_c3 (v : V1) :
    (v1DefaultConsent v = true ↔ v.max_vendor_id / 2 ≤ v.vendor_consent.len)
    ∧ v1Range v = (if v1DefaultConsent v then
        create_false_range v.vendor_consent v.max_vendor_id
      else create_true_range v.vendor_consent)
    ∧ (v1Range v).2 =
        13 + 17 * (v1Range v).1.countP (fun e => isSingleEntry e)
           + 33 * (v1Range v).1.countP (fun e => isRangeEntry e)
    ∧ (v1EncodingType v = 0 ↔ v.max_vendor_id ≤ (v1Range v).2)
    ∧ (v1EncodingType v = 1 ↔ (v1Range v).2 < v.max_vendor_id) := by
  have key : ∀ s : BitSet, (create_true_range s).2 =
      13 + 17 * (create_true_range s).1.countP (fun e => isSingleEntry e)
         + 33 * (create_true_range s).1.countP (fun e => isRangeEntry e) := by
    intro s
    rw [create_true_range_count s]
    unfold entWeight
    omega
  refine ⟨by simp [v1DefaultConsent], rfl, ?_, ?_, ?_⟩
  · unfold v1Range
    by_cases h : v1DefaultConsent v
    · simp only [if_pos h, create_false_range]
      exact key _
    · simp only [if_neg h]
      exact key _
  · unfold v1EncodingType
    by_cases h : v.max_vendor_id ≤ (v1Range v).2
    · simp [h]
    · simp [h]
  · unfold v1EncodingType
    by_cases h : v.max_vendor_id ≤ (v1Range v).2
    · simp only [if_pos h]
      constructor
      · intro h1; cases h1
      · intro h1; omega
    · simp only [if_neg h]
      constructor
      · intro _; omega
      · intro _; trivial

/-- C6: for every ascending sequence of set bit positions (every `BitSet.iter`
is such a sequence), create_true_range returns exactly the maximal-run
decomposition mapped to entries (a run is closed the moment the next position
is not contiguous, and the final open run is flushed at the end), it covers
exactly the input positions as 1-based IDs, it emits Range only for runs of
two or more consecutive positions, its entry count is minimal among all entry
lists covering exactly the same positions, and create_false_range is
create_true_range of the complement. -/
theorem claim_c6 (s : BitSet) :
    (create_true_range s).1 = (chunks s.iter none).map mkEntry
    ∧ coveredL (create_true_range s).1 = (s.iter.map (· + 1)).toFinset
    ∧ (∀ a b : Nat, Entry.range a b ∈ (create_true_range s).1 → a < b)
    ∧ (∀ es2 : List Entry, coveredL es2 = coveredL (create_true_range s).1 →
        (create_true_range s).1.length ≤ es2.length)
    ∧ (∀ (s2 : BitSet) (max_vendor_id : Nat),
        create_false_range s2 max_vendor_id = create_true_range
          ((BitSet.from_bit_vec (BitVec.from_elem max_vendor_id true)).difference_with
            s2)) := by
  have hsort : List.Pairwise (· < ·) s.iter := trueIndices_pairwise s.bv.bits 0
  obtain ⟨hcov, hwf, hpw⟩ := chunks_spec_none s.iter hsort
  have hfst : (create_true_range s).1 = (chunks s.iter none).map mkEntry := by
    rw [create_true_range_eq]
    exact runLoop_fst_eq_chunks s.iter none
  have hS : coveredL (create_true_range s).1 =
      (chunksCov (chunks s.iter none)).image (· + 1) := by
    rw [hfst, coveredL_map_mkEntry]
  refine ⟨hfst, ?_, ?_, ?_, fun s2 m => rfl⟩
  · rw [hS, hcov]
    ext x
    simp
  · intro a b hab
    rw [hfst, List.mem_map] at hab
    obtain ⟨p, hp, hmk⟩ := hab
    have hple := hwf p hp
    unfold mkEntry at hmk
    by_cases hpe : p.1 = p.2
    · rw [if_pos hpe] at hmk
      cases hmk
    · rw [if_neg hpe] at hmk
      cases hmk
      omega
  · intro es2 h2
    have h2a : coveredL es2 = (chunksCov (chunks s.iter none)).image (· + 1) := by
      rw [h2, hS]
    have hmin := minimality_aux es2 _ h2a
    have hlen := chunks_length_le (chunks s.iter none) hwf hpw
    rw [hfst, List.length_map]
    omega

def c6wSet : BitSet := ⟨⟨[true, true, false, true]⟩⟩

/-- Witness for C6 at the set with bit positions 0, 1, 3: the entries are
Range(1,2) and Single(4), and this two-entry list is no longer than the
three-single exact cover of the same IDs. -/
theorem claim_c6_witness :
    (create_true_range c6wSet).1 = [Entry.range 1 2, Entry.single 4]
    ∧ (create_true_range c6wSet).1.length ≤
        [Entry.single 1, Entry.single 2, Entry.single 4].length := by
  constructor
  · rfl
  · exact (claim_c6 c6wSet).2.2.2.1
      [Entry.single 1, Entry.single 2, Entry.single 4] (by decide)

/-- C7: every record whose consent_language does not have exactly two bytes,
each in a..z, fails to encode with the invalid-language error (Error::Other),
raised before anything else is done. -/
theorem claim_c7 (v : V1) :
    ((utf8Bytes v.consent_language).length ≠ 2 ∨
      ∃ i, i < 2 ∧ ((utf8Bytes v.consent_language).getD i 0 < 97 ∨
        122 < (utf8Bytes v.consent_language).getD i 0)) →
    ∃ msg, serialize_v1 v = .error (.other msg) := by
  intro h
  by_cases hlen : (utf8Bytes v.consent_language).length ≠ 2
  · refine ⟨"Invalid consent language: " ++ v.consent_language, ?_⟩
    simp only [serialize_v1, if_pos hlen]
  · by_cases hb0 : ((utf8Bytes v.consent_language).getD 0 0 < 97 ∨
        122 < (utf8Bytes v.consent_language).getD 0 0)
    · refine ⟨"Invalid char " ++
        String.singleton (Char.ofNat ((utf8Bytes v.consent_language).getD 0 0)) ++
        " in consent language at position 0", ?_⟩
      simp only [serialize_v1, if_neg hlen, if_pos hb0]
    · have hb1 : ((utf8Bytes v.consent_language).getD 1 0 < 97 ∨
          122 < (utf8Bytes v.consent_language).getD 1 0) := by
        rcases h with h | ⟨i, hi, hbad⟩
        · exact absurd h hlen
        · have hi01 : i = 0 ∨ i = 1 := by omega
          rcases hi01 with hi0 | hi1
          · subst hi0; exact absurd hbad hb0
          · subst hi1; exact hbad
      refine ⟨"Invalid char " ++
        String.singleton (Char.ofNat ((utf8Bytes v.consent_language).getD 1 0)) ++
        " in consent language at position 1", ?_⟩
      simp only [serialize_v1, if_neg hlen, if_neg hb0, if_pos hb1]

def c7Rec : V1 :=
  { created := ⟨0, 0⟩, last_updated := ⟨0, 0⟩, cmp_id := 0, cmp_version := 0,
    consent_screen := 0, consent_language := "EN", vendor_list_version := 0,
    purposes_allowed := BitSet.from_bytes [0, 0, 0], max_vendor_id := 4,
    vendor_consent := ⟨⟨List.replicate 4 false⟩⟩ }

/-- Witness for C7 at consent_language = EN (uppercase). -/
theorem claim_c7_witness : ∃ msg, serialize_v1 c7Rec = .error (.other msg) :=
  claim_c7 c7Rec (Or.inr ⟨0, by decide, by decide⟩)

/-- C8, amended: a field written directly at its declared width makes the
encoder fail with bitstream-io's invalid-input error when the value does not
fit (here: cmp_id at 12 bits, with valid language and in-range timestamps);
but max_vendor_id and range-entry IDs are cast with `as u16` before the
write and silently truncate instead of failing (see
`claim_c8_counterexample`). -/
theorem claim_c8_amended (v : V1)
    (hlen : (utf8Bytes v.consent_language).length = 2)
    (h0a : 97 ≤ (utf8Bytes v.consent_language).getD 0 0)
    (h0b : (utf8Bytes v.consent_language).getD 0 0 ≤ 122)
    (h1a : 97 ≤ (utf8Bytes v.consent_language).getD 1 0)
    (h1b : (utf8Bytes v.consent_language).getD 1 0 ≤ 122)
    (hc1 : 0 ≤ tsDecisecs v.created) (hc2 : tsDecisecs v.created < 2 ^ 36)
    (hl1 : 0 ≤ tsDecisecs v.last_updated)
    (hl2 : tsDecisecs v.last_updated < 2 ^ 36)
    (hcmp : 4096 ≤ v.cmp_id) :
    serialize_v1 v = .error (.ioError .invalidInput) := by
  have hlen2 : ¬ (utf8Bytes v.consent_language).length ≠ 2 := by omega
  have hb0 : ¬ ((utf8Bytes v.consent_language).getD 0 0 < 97 ∨
      122 < (utf8Bytes v.consent_language).getD 0 0) := by omega
  have hb1 : ¬ ((utf8Bytes v.consent_language).getD 1 0 < 97 ∨
      122 < (utf8Bytes v.consent_language).getD 1 0) := by omega
  have hw0 : writeBits 6 1 = .ok (natToBits 6 1) := rfl
  have hw1 : writeTs (tsDecisecs v.created) =
      .ok (natToBits 36 (tsDecisecs v.created).toNat) := by
    unfold writeTs
    rw [if_pos ⟨hc1, hc2⟩]
  have hw2 : writeTs (tsDecisecs v.last_updated) =
      .ok (natToBits 36 (tsDecisecs v.last_updated).toNat) := by
    unfold writeTs
    rw [if_pos ⟨hl1, hl2⟩]
  have hw3 : writeBits 12 v.cmp_id = .error (.ioError .invalidInput) := by
    unfold writeBits
    rw [if_neg (by omega : ¬ v.cmp_id < 2 ^ 12)]
  simp only [serialize_v1, if_neg hlen2, if_neg hb0, if_neg hb1, hw0, hw1, hw2,
    hw3, except_bind_ok, except_bind_err]

def c8Rec : V1 :=
  { created := ⟨0, 0⟩, last_updated := ⟨0, 0⟩, cmp_id := 0, cmp_version := 0,
    consent_screen := 0, consent_language := "aa", vendor_list_version := 0,
    purposes_allowed := BitSet.from_bytes [0, 0, 0], max_vendor_id := 65541,
    vendor_consent := ⟨⟨[]⟩⟩ }

set_option maxRecDepth 8000 in
/-- C8 counterexample: a record with max_vendor_id = 65541 (not
representable in 16 bits) encodes successfully; the `as u16` cast silently
truncates the field to 65541 mod 65536 = 5, as decoding the produced string
confirms.  The claim says encoding reports an overflow error instead. -/
theorem claim_c8_counterexample :
    serialize_v1 c8Rec = .ok "BAAAAAAAAAAAAAAAAAAAAAAAAAAAWAAA"
    ∧ (match from_str "BAAAAAAAAAAAAAAAAAAAAAAAAAAAWAAA" with
      | some (.ok (.V1 v)) => some v.max_vendor_id
      | _ => none) = some 5 := by
  constructor
  · decide
  · decide

def c8wRec : V1 :=
  { created := ⟨0, 0⟩, last_updated := ⟨0, 0⟩, cmp_id := 4096, cmp_version := 0,
    consent_screen := 0, consent_language := "aa", vendor_list_version := 0,
    purposes_allowed := BitSet.from_bytes [0, 0, 0], max_vendor_id := 4,
    vendor_consent := ⟨⟨List.replicate 4 false⟩⟩ }

/-- Witness for the amended C8: cmp_id = 4096 does not fit 12 bits and the
encode fails with the invalid-input io error. -/
theorem claim_c8_witness : serialize_v1 c8wRec = .error (.ioError .invalidInput) :=
  claim_c8_amended c8wRec (by decide) (by decide) (by decide) (by decide)
    (by decide) (by decide) (by decide) (by decide) (by decide) (by decide)

theorem BitSet.iter_eq_of_eqSet {a b : BitSet} (h : BitSet.eqSet a b) :
    a.iter = b.iter := by
  have hmem : ∀ i, i ∈ a.iter ↔ i ∈ b.iter := by
    intro i
    rw [← BitSet.contains_iff_mem_iter, ← BitSet.contains_iff_mem_iter, h i]
  have ha := trueIndices_pairwise a.bv.bits 0
  have hb := trueIndices_pairwise b.bv.bits 0
  exact List.eq_of_perm_of_sorted
    ((List.perm_ext_iff_of_nodup (ha.imp Nat.ne_of_lt) (hb.imp Nat.ne_of_lt)).mpr hmem)
    ha hb

theorem andNotBits_replicate_congr : ∀ (n : Nat) (b1 b2 : List Bool),
    (∀ i, b1.getD i false = b2.getD i false) →
    andNotBits (List.replicate n true) b1 = andNotBits (List.replicate n true) b2 := by
  intro n
  induction n with
  | zero => intro b1 b2 _; rfl
  | succ n ih =>
    intro b1 b2 h
    have htail : ∀ (x : Bool) (xs : List Bool) (y : Bool) (ys : List Bool),
        b1 = x :: xs → b2 = y :: ys → ∀ i, xs.getD i false = ys.getD i false := by
      intro x xs y ys h1 h2 i
      have := h (i + 1)
      rw [h1, h2] at this
      simpa using this
    cases b1 with
    | nil =>
      cases b2 with
      | nil => rfl
      | cons y ys =>
        have h0 := h 0
        simp only [List.getD_nil, List.getD_cons_zero] at h0
        rw [show andNotBits (List.replicate (n + 1) true) [] =
          true :: andNotBits (List.replicate n true) [] from rfl,
          show andNotBits (List.replicate (n + 1) true) (y :: ys) =
          (true && !y) :: andNotBits (List.replicate n true) ys from rfl,
          ← h0]
        rw [ih [] ys (fun i => by simpa using (h (i + 1)))]
        rfl
    | cons x xs =>
      cases b2 with
      | nil =>
        have h0 := h 0
        simp only [List.getD_nil, List.getD_cons_zero] at h0
        rw [show andNotBits (List.replicate (n + 1) true) [] =
          true :: andNotBits (List.replicate n true) [] from rfl,
          show andNotBits (List.replicate (n + 1) true) (x :: xs) =
          (true && !x) :: andNotBits (List.replicate n true) xs from rfl,
          h0]
        rw [ih xs [] (fun i => by simpa using (h (i + 1)))]
        rfl
      | cons y ys =>
        have h0 := h 0
        simp only [List.getD_cons_zero] at h0
        rw [show andNotBits (List.replicate (n + 1) true) (x :: xs) =
          (true && !x) :: andNotBits (List.replicate n true) xs from rfl,
          show andNotBits (List.replicate (n + 1) true) (y :: ys) =
          (true && !y) :: andNotBits (List.replicate n true) ys from rfl,
          h0]
        rw [ih xs ys (htail x xs y ys rfl rfl)]

def c10aRec : V1 :=
  { created := ⟨0, 0⟩, last_updated := ⟨0, 0⟩, cmp_id := 0, cmp_version := 0,
    consent_screen := 0, consent_language := "aa", vendor_list_version := 0,
    purposes_allowed := BitSet.from_bytes [0, 0, 0], max_vendor_id := 8,
    vendor_consent := ⟨⟨[]⟩⟩ }

def c10bRec : V1 := { c10aRec with vendor_consent := ⟨⟨List.replicate 8 false⟩⟩ }

set_option maxRecDepth 8000 in
/-- C10 counterexample: the two records are equal under the derived
PartialEq (bit_set compares sets, ignoring capacity), but serialize_v1
produces different strings, because the bitfield payload is
`to_bytes` of the underlying bit vector: zero bytes for an empty vector,
one byte for an eight-bit vector. -/
theorem claim_c10_counterexample :
    V1.eqV1 c10aRec c10bRec ∧ serialize_v1 c10aRec ≠ serialize_v1 c10bRec := by
  refine ⟨⟨rfl, rfl, rfl, rfl, rfl, rfl, rfl, fun i => rfl, rfl, ?_⟩, by decide⟩
  intro i
  rw [BitSet.contains_eq_decide_mem, BitSet.contains_eq_decide_mem]
  rw [show c10aRec.vendor_consent.iter = [] from rfl,
    show c10bRec.vendor_consent.iter = [] from rfl]

/-- C10, amended: the encoder output is not a function of the PartialEq
class of the record: in bitfield mode it depends on the capacity of the
vendor_consent BitSet (see `claim_c10_counterexample`).  It is a function of
the membership of vendor_consent whenever the range encoding is selected:
replacing vendor_consent by any set with the same members (any capacity)
leaves the output unchanged. -/
theorem claim_c10_amended (v : V1) (b2 : BitSet)
    (hset : BitSet.eqSet v.vendor_consent b2)
    (htype : v1EncodingType v = 1) :
    serialize_v1 { v with vendor_consent := b2 } = serialize_v1 v := by
  have hiter : b2.iter = v.vendor_consent.iter :=
    BitSet.iter_eq_of_eqSet (fun i => (hset i).symm)
  have hlen : b2.len = v.vendor_consent.len := by
    rw [BitSet.len_eq_iter_length, BitSet.len_eq_iter_length, hiter]
  have hctr : create_true_range b2 = create_true_range v.vendor_consent := by
    unfold create_true_range
    rw [hiter]
  have hcfr : ∀ m, create_false_range b2 m = create_false_range v.vendor_consent m := by
    intro m
    unfold create_false_range BitSet.difference_with BitSet.from_bit_vec BitVec.from_elem
    have heq : andNotBits (List.replicate m true) b2.bv.bits =
        andNotBits (List.replicate m true) v.vendor_consent.bv.bits :=
      andNotBits_replicate_congr m b2.bv.bits v.vendor_consent.bv.bits
        (fun i => (hset i).symm)
    rw [heq]
  have hdc : v1DefaultConsent { v with vendor_consent := b2 } = v1DefaultConsent v := by
    simp only [v1DefaultConsent, hlen]
  have hrange : v1Range { v with vendor_consent := b2 } = v1Range v := by
    simp only [v1Range, hdc]
    by_cases hd : v1DefaultConsent v
    · simp only [hd, if_true]
      exact hcfr v.max_vendor_id
    · simp only [hd, if_false]
      exact hctr
  have htyp2 : v1EncodingType { v with vendor_consent := b2 } = 1 := by
    simp only [v1EncodingType, hrange] at htype ⊢
    exact htype
  simp only [serialize_v1, hdc, hrange, htyp2, htype, Nat.reduceEqDiff, reduceIte]

def c10wRec : V1 :=
  { created := ⟨0, 0⟩, last_updated := ⟨0, 0⟩, cmp_id := 0, cmp_version := 0,
    consent_screen := 0, consent_language := "aa", vendor_list_version := 0,
    purposes_allowed := BitSet.from_bytes [0, 0, 0], max_vendor_id := 50,
    vendor_consent := ⟨⟨[true]⟩⟩ }

def c10wSet : BitSet := ⟨⟨true :: List.replicate 10 false⟩⟩

/-- Witness for the amended C10: with max_vendor_id = 50 and the set with
member 1 the range encoding is selected, and a capacity-11 set with the same
member serializes identically. -/
theorem claim_c10_witness :
    serialize_v1 { c10wRec with vendor_consent := c10wSet } = serialize_v1 c10wRec := by
  apply claim_c10_amended c10wRec c10wSet
  · intro i
    rw [BitSet.contains_eq_decide_mem, BitSet.contains_eq_decide_mem]
    rw [show c10wRec.vendor_consent.iter = [0] from rfl,
      show c10wSet.iter = [0] from rfl]
  · decide

def c1Rec : V1 :=
  { created := ⟨0, 0⟩, last_updated := ⟨0, 0⟩, cmp_id := 0, cmp_version := 0,
    consent_screen := 0, consent_language := "aa", vendor_list_version := 0,
    purposes_allowed := BitSet.from_bytes [0, 0, 0], max_vendor_id := 4,
    vendor_consent := ⟨⟨List.replicate 4 false⟩⟩ }

set_option maxRecDepth 8000 in
/-- C1, failing input: this fully valid record (timestamps at epoch with
decisecond precision, two lowercase language bytes, vendor_consent within
1..=max_vendor_id = 4, capacity equal to max_vendor_id) selects the bitfield
encoding; decoding the string it encodes to fails with UnexpectedEndOfInput
instead of returning the record, because the encoder emits ceil(4/8) = 1
whole payload byte plus 3 padding bits while the decoder demands that byte
and then 4 further remainder bits.  This contradicts the round-trip
property the claim states. -/
theorem claim_c1_failing :
    serialize_v1 c1Rec = .ok "BAAAAAAAAAAAAAAAAAAAAAAAAAAAQAA"
    ∧ from_str "BAAAAAAAAAAAAAAAAAAAAAAAAAAAQAA" =
      some (.error (.ioError .unexpectedEof)) := by
  constructor
  · decide
  · decide


def c5Str : String := "BOEFBi5OEFBi5AHABDENAI4AAAB9vABAASA"

def c5Bytes : List Nat :=
  [4, 225, 5, 6, 46, 78, 16, 80, 98, 228, 1, 192, 4, 49, 13, 0, 142, 0, 0, 0,
   125, 188, 0, 64, 1, 32]

def c5Bits : List Bool := c5Bytes.flatMap byteBits

def c5Rec : V1 :=
  { created := ⟨1510081144, 900000000⟩, last_updated := ⟨1510081144, 900000000⟩,
    cmp_id := 7, cmp_version := 1, consent_screen := 3, consent_language := "en",
    vendor_list_version := 8, purposes_allowed := BitSet.from_bytes [224, 0, 0],
    max_vendor_id := 2011,
    vendor_consent := ⟨⟨(List.replicate 2011 true).set 8 false⟩⟩ }

theorem count_replicate_true : ∀ n : Nat, (List.replicate n true).count true = n := by
  intro n
  induction n with
  | zero => rfl
  | succ m ih => rw [List.replicate_succ, List.count_cons, ih]; simp

theorem count_replicate_set_false : ∀ (n j : Nat), j < n →
    ((List.replicate n true).set j false).count true = n - 1 := by
  intro n
  induction n with
  | zero => intro j h; omega
  | succ m ih =>
    intro j h
    rw [List.replicate_succ]
    cases j with
    | zero =>
      rw [List.set_cons_zero, List.count_cons, count_replicate_true]
      simp
    | succ k =>
      rw [List.set_cons_succ, List.count_cons, ih k (by omega)]
      have hm : 1 ≤ m := by omega
      simp
      omega

theorem andNotBits_replicate_of_length : ∀ (l : List Bool) (n : Nat),
    l.length = n →
    andNotBits (List.replicate n true) l = l.map (fun b => !b) := by
  intro l
  induction l with
  | nil => intro n h; subst h; rfl
  | cons b bs ih =>
    intro n h
    subst h
    rw [List.length_cons, List.replicate_succ]
    simp only [andNotBits, List.map_cons, Bool.true_and]
    rw [ih bs.length rfl]

theorem trueIndices_replicate_false : ∀ (n k : Nat),
    trueIndices (List.replicate n false) k = [] := by
  intro n
  induction n with
  | zero => intro k; rfl
  | succ m ih =>
    intro k
    rw [List.replicate_succ]
    simp only [trueIndices, if_neg (by simp : ¬ false = true)]
    exact ih (k + 1)

theorem trueIndices_single : ∀ (n j k : Nat), j < n →
    trueIndices ((List.replicate n false).set j true) k = [k + j] := by
  intro n
  induction n with
  | zero => intro j k h; omega
  | succ m ih =>
    intro j k h
    rw [List.replicate_succ]
    cases j with
    | zero =>
      rw [List.set_cons_zero]
      simp only [trueIndices, eq_self_iff_true, if_true,
        trueIndices_replicate_false, Nat.add_zero]
    | succ i =>
      rw [List.set_cons_succ]
      simp only [trueIndices, if_neg (by simp : ¬ false = true)]
      rw [ih i (k + 1) (by omega)]
      congr 1
      omega

theorem c5_applyEntries :
    applyEntries true [Entry.single 9] (BitVec.from_elem 2011 true) =
      some ⟨(List.replicate 2011 true).set 8 false⟩ := by
  have h1 : setConsent true (BitVec.from_elem 2011 true) 9 =
      some ⟨(List.replicate 2011 true).set 8 false⟩ := by
    simp only [setConsent, rustSub]
    rw [if_pos (by norm_num : 1 ≤ 9)]
    simp only [BitVec.set, BitVec.from_elem, List.length_replicate]
    rw [if_pos (by norm_num : 9 - 1 < 2011)]
    rfl
  simp only [applyEntries, applyEntry, h1]

set_option maxRecDepth 8000 in
theorem c5_parse_range :
    parse_v1_range 2011 (c5Bits.drop 173) =
      liftE (.ok ((⟨⟨(List.replicate 2011 true).set 8 false⟩⟩ : BitSet),
        List.replicate 5 false)) := by
  rw [parse_v1_range_eq (show readRangeEntries (c5Bits.drop 173) =
    .ok (true, [Entry.single 9], List.replicate 5 false) from by decide)]
  rw [c5_applyEntries, liftP_some_bind]
  rfl

set_option maxRecDepth 8000 in
theorem c5_parse_v1 : parse_v1 (c5Bits.drop 6) = liftE (.ok c5Rec) := by
  simp only [parse_v1,
    show readBits 36 (c5Bits.drop 6) = .ok (15100811449, c5Bits.drop 42) from by decide,
    show readBits 36 (c5Bits.drop 42) = .ok (15100811449, c5Bits.drop 78) from by decide,
    show readBits 12 (c5Bits.drop 78) = .ok (7, c5Bits.drop 90) from by decide,
    show readBits 12 (c5Bits.drop 90) = .ok (1, c5Bits.drop 102) from by decide,
    show readBits 6 (c5Bits.drop 102) = .ok (3, c5Bits.drop 108) from by decide,
    show readBits 6 (c5Bits.drop 108) = .ok (4, c5Bits.drop 114) from by decide,
    show readBits 6 (c5Bits.drop 114) = .ok (13, c5Bits.drop 120) from by decide,
    show fromUtf8Pair (4 + 97) (13 + 97) = .ok "en" from by decide,
    show readBits 12 (c5Bits.drop 120) = .ok (8, c5Bits.drop 132) from by decide,
    show readNBytes 3 (c5Bits.drop 132) = .ok ([224, 0, 0], c5Bits.drop 156) from by decide,
    show readBits 16 (c5Bits.drop 156) = .ok (2011, c5Bits.drop 172) from by decide,
    show readBits 1 (c5Bits.drop 172) = .ok (1, c5Bits.drop 173) from by decide,
    res_ok_bind, Nat.reduceEqDiff, reduceIte, c5_parse_range]
  rfl

set_option maxRecDepth 8000 in
theorem c5_from_str : from_str c5Str = some (.ok (.V1 c5Rec)) := by
  simp only [from_str,
    show base64Decode c5Str = .ok c5Bytes from by decide,
    show readBits 6 (c5Bytes.flatMap byteBits) = .ok (1, c5Bits.drop 6) from by decide,
    res_ok_bind, eq_self_iff_true, if_true, c5_parse_v1]
  rfl

theorem c5_len : BitSet.len c5Rec.vendor_consent = 2010 := by
  show ((List.replicate 2011 true).set 8 false).count true = 2010
  rw [count_replicate_set_false 2011 8 (by norm_num)]

theorem c5_default_consent : v1DefaultConsent c5Rec = true := by
  unfold v1DefaultConsent
  rw [c5_len]
  decide

theorem c5_diff_iter :
    BitSet.iter ((BitSet.from_bit_vec
      (BitVec.from_elem c5Rec.max_vendor_id true)).difference_with
      c5Rec.vendor_consent) = [8] := by
  show trueIndices (andNotBits (List.replicate 2011 true)
    ((List.replicate 2011 true).set 8 false)) 0 = [8]
  rw [andNotBits_replicate_of_length _ 2011
    (by rw [List.length_set, List.length_replicate]), List.map_set, List.map_replicate]
  show trueIndices ((List.replicate 2011 false).set 8 true) 0 = [8]
  rw [trueIndices_single 2011 8 0 (by norm_num)]

theorem c5_range : v1Range c5Rec = ([Entry.single 9], 30) := by
  unfold v1Range
  rw [c5_default_consent, if_pos rfl]
  unfold create_false_range create_true_range
  rw [c5_diff_iter]
  decide

theorem c5_type : v1EncodingType c5Rec = 1 := by
  unfold v1EncodingType
  rw [c5_range]
  decide

set_option maxRecDepth 8000 in
theorem c5_serialize : serialize_v1 c5Rec = .ok c5Str := by
  simp only [serialize_v1, c5_default_consent, c5_range, c5_type,
    show utf8Bytes c5Rec.consent_language = [101, 110] from by decide]
  decide

set_option maxRecDepth 8000 in
/-- C5: decoding the golden base64 string succeeds and yields the decoded
record `c5Rec` with cmp_id 7, cmp_version 1, consent_screen 3, consent
language "en", vendor list version 8, purposes 1..3 (set indices 0..2 of
the 3-byte map), max_vendor_id 2011 and consent for exactly the vendor IDs
1..=2011 other than 9 (set index i holds ID i+1); re-encoding the record
reproduces exactly the same string. -/
theorem claim_c5 :
    from_str c5Str = some (.ok (.V1 c5Rec)) ∧
    c5Rec.cmp_id = 7 ∧ c5Rec.cmp_version = 1 ∧ c5Rec.consent_screen = 3 ∧
    c5Rec.consent_language = "en" ∧ c5Rec.vendor_list_version = 8 ∧
    c5Rec.max_vendor_id = 2011 ∧
    (∀ i, c5Rec.purposes_allowed.contains i = decide (i + 1 ≤ 3)) ∧
    (∀ i, c5Rec.vendor_consent.contains i =
      decide (i + 1 ≤ 2011 ∧ i + 1 ≠ 9)) ∧
    serialize_v1 c5Rec = .ok c5Str := by
  refine ⟨c5_from_str, rfl, rfl, rfl, rfl, rfl, rfl, ?_, ?_, c5_serialize⟩
  · intro i
    show (BitSet.from_bytes [224, 0, 0]).contains i = decide (i + 1 ≤ 3)
    rcases Nat.lt_or_ge i 24 with h | h
    · interval_cases i <;> decide
    · rw [show BitSet.contains (BitSet.from_bytes [224, 0, 0]) i =
        (([224, 0, 0] : List Nat).flatMap byteBits).getD i false from rfl]
      rw [List.getD_eq_default _ _ (by simpa using h)]
      have : ¬ (i + 1 ≤ 3) := by omega
      exact (decide_eq_false this).symm
  · intro i
    show ((List.replicate 2011 true).set 8 false).getD i false =
      decide (i + 1 ≤ 2011 ∧ i + 1 ≠ 9)
    rw [List.getD_eq_getElem?_getD]
    by_cases h8 : i = 8
    · subst h8
      rw [List.getElem?_set_self (by rw [List.length_replicate]; norm_num)]
      decide
    · rw [List.getElem?_set_ne (fun h => h8 h.symm), List.getElem?_replicate]
      by_cases hi : i < 2011
      · rw [if_pos hi]
        have hp : i + 1 ≤ 2011 ∧ i + 1 ≠ 9 := ⟨by omega, by omega⟩
        simp only [Option.getD_some]
        exact (decide_eq_true hp).symm
      · rw [if_neg hi]
        have hp : ¬ (i + 1 ≤ 2011 ∧ i + 1 ≠ 9) := by
          intro hc
          exact hi (by omega)
        simp only [Option.getD_none]
        exact (decide_eq_false hp).symm

end GdprConsent
